import Mathlib

/-!
Verification of the python-csp-solver repository (`src/csp.py`,
`src/arc_consistency.py`, `src/domain_splitting.py`).

Embedding conventions:
* Python `Dict[str, Set[Any]]` (the variable → domain mapping) is modelled as
  an insertion-ordered association list `List (VarName × List α)`; Python
  dicts preserve insertion order and Python sets are modelled as
  duplicate-free lists in iteration order.
* Opaque Python values are a type parameter `α` with decidable equality.
* A Python `Constraint` object carries an `id : Nat` modelling object
  identity: `Constraint.__eq__` compares `self.function` by identity, which
  the `id` field embeds (distinct constraint objects have distinct ids).
* The agenda (a Python `set` of arcs, popped in unspecified order) is
  modelled as a duplicate-free list: `add_arc` appends unless an equal arc
  is already pending, `next_arc` pops the head.  This is one deterministic
  refinement of the unspecified pop order.
-/

namespace CspSolver

/-- Variable names (Python dict keys are strings). -/
abbrev VarName := String

/-- A domain map, Python `Dict[str, Set[Any]]`. -/
abbrev Domains (α : Type) := List (VarName × List α)

/-- An assignment, Python `Dict[str, Any]`. -/
abbrev Assignment (α : Type) := List (VarName × α)

/-- `domains[v]`: the first entry with key `v` (Python dict lookup; Python
raises `KeyError` for a missing key, we return `[]` — all theorems about
ill-scoped lookups carry the scope-validity hypothesis under which the
missing-key case never arises). -/
def lookupDom {α : Type} : Domains α → VarName → List α
  | [], _ => []
  | (k, d) :: rest, v => if k = v then d else lookupDom rest v

/-- `assignment[v]` with a junk default for a missing key (the algorithms
only read keys they have written, see `Constraint.check`). -/
def lookupVal {α : Type} [Inhabited α] : Assignment α → VarName → α
  | [], _ => default
  | (k, x) :: rest, v => if k = v then x else lookupVal rest v

/-- `domains[v] = nd`: replace the value at key `v` keeping its position,
or append a fresh entry if the key is absent (Python dict assignment). -/
def dictUpdate {α : Type} : Domains α → VarName → List α → Domains α
  | [], v, nd => [(v, nd)]
  | (k, d) :: rest, v, nd =>
    if k = v then (k, nd) :: rest else (k, d) :: dictUpdate rest v nd

/-- A constraint (`class Constraint` in `src/csp.py`): a scope (the ordered
list of variable names, Python's `Constraint.variables`) and a boolean
function of the scope's values.  `id` models Python object identity, which
is what `Constraint.__eq__` compares. -/
structure Constraint (α : Type) where
  id : Nat
  vars : List VarName
  fn : List α → Bool

/-- `Constraint.check`: evaluate the constraint on an assignment by binding
each scope variable to its value (`self.function(**assignment)`). -/
def Constraint.check {α : Type} [Inhabited α] (c : Constraint α) (a : Assignment α) : Bool :=
  c.fn (c.vars.map (fun v => lookupVal a v))

/-- A CSP (`class CSP` in `src/csp.py`). -/
structure CSP (α : Type) where
  vars : Domains α
  constraints : List (Constraint α)
  representation : Option (Assignment α → String)

/-- An arc in the constraint network (`Arc` namedtuple in
`src/arc_consistency.py`). -/
structure Arc (α : Type) where
  constraint : Constraint α
  var : VarName

/-- Arc equality as Python computes it on the `Arc` namedtuple: the
constraint compares by identity (`id`), the variable by value. -/
def Arc.beq {α : Type} (a b : Arc α) : Bool :=
  a.constraint.id == b.constraint.id && a.var == b.var

/-- Membership in the agenda, up to `Arc.beq` (Python `set` membership). -/
def arcMem {α : Type} (a : Arc α) (agenda : List (Arc α)) : Bool :=
  agenda.any (fun b => Arc.beq a b)

/-- `Agenda.add_arc`: insert into the set — a no-op if an equal arc is
already pending, else the arc becomes a new member (we append). -/
def addArc {α : Type} (agenda : List (Arc α)) (a : Arc α) : List (Arc α) :=
  if arcMem a agenda then agenda else agenda ++ [a]

/-- `get_initial_arcs`: one arc from each constraint to each of its
variables. -/
def get_initial_arcs {α : Type} (csp : CSP α) : List (Arc α) :=
  csp.constraints.flatMap (fun c => c.vars.map (fun v => ⟨c, v⟩))

/-- `domain_product`: all assignments drawing one value per variable from
the given domains (the Python generator enumerates exactly the cartesian
product of the dict's domains; it peels the last dict item, we peel the
first — the same set of assignments). -/
def domain_product {α : Type} : Domains α → List (Assignment α)
  | [] => [[]]
  | (v, d) :: rest =>
    (domain_product rest).flatMap (fun a => d.map (fun x => (v, x) :: a))

/-- `make_consistent`: the revised domain for `arc.variable` — the values of
its current domain for which some combination of values of the constraint's
other variables (drawn from their current domains) satisfies the
constraint. -/
def make_consistent {α : Type} [Inhabited α] (arc : Arc α) (domains : Domains α) : List α :=
  let other_vars := arc.constraint.vars.filter (fun v => v != arc.var)
  let current_domain := lookupDom domains arc.var
  let other_domains := domains.filter (fun p => other_vars.contains p.1)
  current_domain.filter (fun value =>
    (domain_product other_domains).any (fun other_values =>
      arc.constraint.check ((arc.var, value) :: other_values)))

/-- `invalidated_arcs`: the arcs possibly broken by revising
`current.var` — arcs of a *different* constraint whose scope contains the
revised variable and whose own target is not the revised variable. -/
def invalidated_arcs {α : Type} (current : Arc α) (arcs : List (Arc α)) : List (Arc α) :=
  arcs.filter (fun arc =>
    arc.constraint.id != current.constraint.id &&
    arc.constraint.vars.contains current.var &&
    arc.var != current.var)

/-- Total number of values over all domain entries (the termination measure
for the propagation loop and the search). -/
def totalSize {α : Type} (d : Domains α) : Nat :=
  (d.map (fun p => p.2.length)).sum

theorem make_consistent_sublist {α : Type} [Inhabited α] (arc : Arc α) (domains : Domains α) :
    List.Sublist (make_consistent arc domains) (lookupDom domains arc.var) :=
  List.filter_sublist _

theorem totalSize_dictUpdate_lt {α : Type} (d : Domains α) (v : VarName) (nd : List α)
    (hsub : List.Sublist nd (lookupDom d v)) (hne : nd ≠ lookupDom d v) :
    totalSize (dictUpdate d v nd) < totalSize d := by
  induction d with
  | nil =>
    simp [lookupDom] at hsub
    exact absurd hsub hne
  | cons p rest ih =>
    obtain ⟨k, dk⟩ := p
    by_cases hk : k = v
    · subst hk
      simp only [lookupDom, if_pos rfl] at hsub hne
      have hlt : nd.length < dk.length :=
        lt_of_le_of_ne hsub.length_le (fun h => hne (hsub.eq_of_length h))
      simp [dictUpdate, totalSize, hlt]
    · simp only [lookupDom, if_neg hk] at hsub hne
      have := ih hsub hne
      simp only [dictUpdate, if_neg hk]
      simpa [totalSize] using this

/-- The propagation loop of `arc_consistency` (the `while not
agenda.is_empty` loop): pop an arc, revise its variable's domain; if the
domain changed, re-enqueue the invalidated arcs and store the new domain. -/
def acLoop {α : Type} [DecidableEq α] [Inhabited α] (arcs : List (Arc α)) :
    List (Arc α) → Domains α → Domains α
  | [], domains => domains
  | current :: rest, domains =>
    let new_domain := make_consistent current domains
    let old_domain := lookupDom domains current.var
    if h : new_domain = old_domain then
      acLoop arcs rest domains
    else
      acLoop arcs ((invalidated_arcs current arcs).foldl addArc rest)
        (dictUpdate domains current.var new_domain)
  termination_by agenda domains => (totalSize domains, agenda.length)
  decreasing_by
  · exact Prod.Lex.right _ (Nat.lt_succ_self _)
  · exact Prod.Lex.left _ _
      (totalSize_dictUpdate_lt _ _ _ (make_consistent_sublist _ _) h)

/-- `arc_consistency`: deep-copy the CSP's domains (the identity in the pure
model), seed the agenda with every initial arc, and run the propagation
loop to fixpoint. -/
def arc_consistency {α : Type} [DecidableEq α] [Inhabited α] (csp : CSP α) : Domains α :=
  let arcs := get_initial_arcs csp
  acLoop arcs (arcs.foldl addArc []) csp.vars

/-- `some_empty`: the domain of at least one variable is empty. -/
def some_empty {α : Type} (domains : Domains α) : Bool :=
  domains.any (fun p => p.2.isEmpty)

/-- `unique`: each variable has exactly one value. -/
def unique {α : Type} (domains : Domains α) : Bool :=
  domains.all (fun p => p.2.length == 1)

/-- `get_split_var`: the first variable (in the domain map's iteration
order) whose domain has more than one value; `none` models reaching the
final `assert False` of the Python function. -/
def get_split_var {α : Type} (domains : Domains α) : Option VarName :=
  (domains.find? (fun p => decide (1 < p.2.length))).map Prod.fst

/-- `partition_domain`: distribute the values alternately over two parts
(first value → part 1, second → part 2, third → part 1, …), in the domain's
iteration order. -/
def partition_domain {α : Type} : List α → List α × List α
  | [] => ([], [])
  | x :: rest =>
    let p := partition_domain rest
    (x :: p.2, p.1)

/-- `make_split_csp`: a new CSP whose domain map is a copy of `new_domains`
with `split_var`'s domain replaced by `split_domain`, sharing the input
CSP's constraints and representation. -/
def make_split_csp {α : Type} (csp : CSP α) (new_domains : Domains α)
    (split_var : VarName) (split_domain : List α) : CSP α :=
  { vars := dictUpdate new_domains split_var split_domain,
    constraints := csp.constraints,
    representation := csp.representation }

/-- The body of `domain_splitting`, indexed by recursion fuel: Python's
recursion is unbounded, so the shallow embedding runs the recursive
generator with an explicit fuel; `ds_fuel_stable` proves that any fuel of
at least `splitSlack csp.vars + 1` (the spec's recursion-depth bound, the
sum of `domain size - 1` over all variables, plus one for the root call)
yields the same result, so `domain_splitting` below is fuel-independent.
Out of fuel yields no solutions. -/
def ds_fuel {α : Type} [DecidableEq α] [Inhabited α] :
    Nat → CSP α → List (Assignment α)
  | 0, _ => []
  | fuel + 1, csp =>
    let domains := arc_consistency csp
    if some_empty domains then []
    else if unique domains then
      [domains.map (fun p => (p.1, p.2.headD default))]
    else
      match get_split_var domains with
      | none => []
      | some split_var =>
        let part := partition_domain (lookupDom domains split_var)
        ds_fuel fuel (make_split_csp csp domains split_var part.1) ++
        ds_fuel fuel (make_split_csp csp domains split_var part.2)

/-- Sum of `domain size - 1` over all variables: the spec's bound on the
recursion depth of the search. -/
def splitSlack {α : Type} (d : Domains α) : Nat :=
  (d.map (fun p => p.2.length - 1)).sum

/-- `domain_splitting`: solve a CSP by domain splitting and arc
consistency, returning the solutions in the order the Python generator
yields them (first split part exhausted first). -/
def domain_splitting {α : Type} [DecidableEq α] [Inhabited α]
    (csp : CSP α) : List (Assignment α) :=
  ds_fuel (splitSlack csp.vars + 1) csp

/-! ### Specification-level predicates -/

/-- A support (glossary of the spec): an assignment, given as a choice
function `f`, of the constraint's scope such that the constraint holds,
`f v = x`, and every *other* scope variable's value is drawn from its
current domain. -/
def Support {α : Type} (c : Constraint α) (domains : Domains α)
    (v : VarName) (x : α) : Prop :=
  ∃ f : VarName → α, f v = x ∧
    (∀ w ∈ c.vars, w ≠ v → f w ∈ lookupDom domains w) ∧
    c.fn (c.vars.map f) = true

/-- Arc consistency of one arc (constraint `c`, target variable `v`):
every value remaining in `v`'s domain has a support. -/
def ArcCons {α : Type} (c : Constraint α) (v : VarName)
    (domains : Domains α) : Prop :=
  ∀ x ∈ lookupDom domains v, Support c domains v x

/-- The keys of the domain map are pairwise distinct (automatic for a
Python dict). -/
def NodupKeys {α : Type} (d : Domains α) : Prop :=
  (d.map Prod.fst).Nodup

/-- Every domain is duplicate-free (automatic for Python sets). -/
def NodupDoms {α : Type} (d : Domains α) : Prop :=
  ∀ p ∈ d, p.2.Nodup

/-- Each constraint's scope references only names present in the variables
mapping (the loader contract of §6 of the spec). -/
def ScopesValid {α : Type} (csp : CSP α) : Prop :=
  ∀ c ∈ csp.constraints, ∀ w ∈ c.vars, w ∈ csp.vars.map Prod.fst

/-- The `id` field faithfully models Python object identity: two
constraints of the list with the same id are the same constraint.  (It
holds in particular whenever the ids are pairwise distinct, see
`idSeparated_of_nodup`.) -/
def IdSeparated {α : Type} (cs : List (Constraint α)) : Prop :=
  ∀ c ∈ cs, ∀ c' ∈ cs, c.id = c'.id → c = c'

/-- Structural well-formedness of a CSP as produced by the Python loader:
dict keys unique, domains are sets, constraint identity faithful. -/
def CSP.WF {α : Type} (csp : CSP α) : Prop :=
  NodupKeys csp.vars ∧ NodupDoms csp.vars ∧ IdSeparated csp.constraints

instance {α : Type} (d : Domains α) : Decidable (NodupKeys d) := by
  unfold NodupKeys
  infer_instance

instance {α : Type} [DecidableEq α] (d : Domains α) :
    Decidable (NodupDoms d) := by
  unfold NodupDoms
  infer_instance

instance {α : Type} (csp : CSP α) : Decidable (ScopesValid csp) := by
  unfold ScopesValid
  infer_instance

/-- Brute-force enumeration: all complete assignments over the original
(pre-propagation) domains that satisfy all constraints. -/
def bruteSolutions {α : Type} [Inhabited α] (csp : CSP α) : List (Assignment α) :=
  (domain_product csp.vars).filter (fun a => csp.constraints.all (fun c => c.check a))

/-! ### Basic lemmas about the dictionary model -/

theorem lookupDom_dictUpdate_self {α : Type} (d : Domains α) (v : VarName)
    (nd : List α) : lookupDom (dictUpdate d v nd) v = nd := by
  induction d with
  | nil => simp [dictUpdate, lookupDom]
  | cons p rest ih =>
    obtain ⟨k, dk⟩ := p
    by_cases hk : k = v
    · simp [dictUpdate, lookupDom, hk]
    · simp [dictUpdate, lookupDom, hk, ih]

theorem lookupDom_dictUpdate_ne {α : Type} (d : Domains α) {v w : VarName}
    (nd : List α) (hne : w ≠ v) :
    lookupDom (dictUpdate d v nd) w = lookupDom d w := by
  have hvw : v ≠ w := fun h => hne h.symm
  induction d with
  | nil => simp [dictUpdate, lookupDom, hvw]
  | cons p rest ih =>
    obtain ⟨k, dk⟩ := p
    by_cases hk : k = v
    · subst hk
      simp [dictUpdate, lookupDom, hvw]
    · simp [dictUpdate, lookupDom, hk, ih]

theorem dictUpdate_keys_of_mem {α : Type} {d : Domains α} {v : VarName}
    (nd : List α) (hv : v ∈ d.map Prod.fst) :
    (dictUpdate d v nd).map Prod.fst = d.map Prod.fst := by
  induction d with
  | nil => simp at hv
  | cons p rest ih =>
    obtain ⟨k, dk⟩ := p
    by_cases hk : k = v
    · simp [dictUpdate, hk]
    · simp only [List.map_cons, List.mem_cons] at hv
      rcases hv with hv | hv

      · exact absurd hv.symm hk
      · simp [dictUpdate, hk, ih hv]

theorem mem_keys_of_lookupDom_ne_nil {α : Type} {d : Domains α}
    {v : VarName} (h : lookupDom d v ≠ []) : v ∈ d.map Prod.fst := by
  induction d with
  | nil => simp [lookupDom] at h
  | cons p rest ih =>
    obtain ⟨k, dk⟩ := p
    by_cases hk : k = v
    · simp [hk]
    · simp only [lookupDom, if_neg hk] at h
      simp [ih h]

theorem lookupDom_entry_mem {α : Type} {d : Domains α} {v : VarName}
    (hv : v ∈ d.map Prod.fst) : (v, lookupDom d v) ∈ d := by
  induction d with
  | nil => simp at hv
  | cons p rest ih =>
    obtain ⟨k, dk⟩ := p
    by_cases hk : k = v
    · subst hk
      simp [lookupDom]
    · simp only [List.map_cons, List.mem_cons] at hv
      rcases hv with hv | hv
      · exact absurd hv.symm hk
      · simp [lookupDom, hk, ih hv]

theorem lookupDom_eq_of_entry {α : Type} {d : Domains α}
    (hnd : NodupKeys d) {p : VarName × List α} (hp : p ∈ d) :
    lookupDom d p.1 = p.2 := by
  induction d with
  | nil => simp at hp
  | cons q rest ih =>
    obtain ⟨k, dk⟩ := q
    rcases List.mem_cons.mp hp with h | h
    · subst h
      simp [lookupDom]
    · have hk : k ≠ p.1 := by
        intro hkp
        have : p.1 ∈ rest.map Prod.fst := List.mem_map_of_mem Prod.fst h
        rw [← hkp] at this
        exact (List.nodup_cons.mp hnd).1 this
      have hrest : NodupKeys rest := (List.nodup_cons.mp hnd).2
      simp [lookupDom, hk, ih hrest h]

theorem mem_dictUpdate {α : Type} {d : Domains α} {v : VarName}
    {nd : List α} {p : VarName × List α} (hp : p ∈ dictUpdate d v nd) :
    p ∈ d ∨ p.2 = nd := by
  induction d with
  | nil =>
    simp [dictUpdate] at hp
    simp [hp]
  | cons q rest ih =>
    obtain ⟨k, dk⟩ := q
    by_cases hk : k = v
    · simp only [dictUpdate, if_pos hk] at hp
      rcases List.mem_cons.mp hp with h | h
      · subst h
        simp
      · exact Or.inl (List.mem_cons_of_mem _ h)
    · simp only [dictUpdate, if_neg hk] at hp
      rcases List.mem_cons.mp hp with h | h
      · exact Or.inl (h ▸ List.mem_cons_self _ _)
      · rcases ih h with h' | h'
        · exact Or.inl (List.mem_cons_of_mem _ h')
        · exact Or.inr h'

/-- If the ids of the constraints are pairwise distinct then `id` equality
determines the constraint — the hypothesis used by the witnesses. -/
theorem idSeparated_of_nodup {α : Type} {cs : List (Constraint α)}
    (h : (cs.map (fun c => c.id)).Nodup) : IdSeparated cs := by
  intro c hc c' hc' hid
  by_contra hne
  induction cs with
  | nil => simp at hc
  | cons q rest ih =>
    simp only [List.map_cons, List.nodup_cons] at h
    rcases List.mem_cons.mp hc with rfl | hc2
    · rcases List.mem_cons.mp hc' with rfl | hc2'
      · exact hne rfl
      · exact h.1 (hid ▸ List.mem_map_of_mem _ hc2')
    · rcases List.mem_cons.mp hc' with rfl | hc2'
      · exact h.1 (hid ▸ List.mem_map_of_mem (fun c => c.id) hc2)
      · exact ih h.2 hc2 hc2'

/-! ### The cartesian product of domains -/

/-- The entrywise relation characterising membership in `domain_product`:
the assignment has the same keys in the same order and each value is drawn
from the corresponding domain. -/
def DrawnFrom {α : Type} (p : VarName × α) (q : VarName × List α) : Prop :=
  p.1 = q.1 ∧ p.2 ∈ q.2

theorem mem_domain_product {α : Type} {doms : Domains α} {σ : Assignment α} :
    σ ∈ domain_product doms ↔ List.Forall₂ DrawnFrom σ doms := by
  induction doms generalizing σ with
  | nil => simp [domain_product]
  | cons q rest ih =>
    obtain ⟨v, d⟩ := q
    simp only [domain_product, List.mem_flatMap, List.mem_map,
      List.forall₂_cons_right_iff]
    constructor
    · rintro ⟨a, ha, x, hx, rfl⟩
      exact ⟨(v, x), a, ⟨rfl, hx⟩, ih.mp ha, rfl⟩
    · rintro ⟨p, σ', ⟨h1, h2⟩, hσ', rfl⟩
      obtain ⟨pv, px⟩ := p
      cases h1
      exact ⟨σ', ih.mpr hσ', px, h2, rfl⟩

theorem keys_of_forall₂ {α : Type} {σ : Assignment α} {doms : Domains α}
    (h : List.Forall₂ DrawnFrom σ doms) :
    σ.map Prod.fst = doms.map Prod.fst := by
  induction h with
  | nil => rfl
  | cons hpq _ ih => simp [hpq.1, ih]

theorem lookupVal_mem_of_forall₂ {α : Type} [Inhabited α] {σ : Assignment α}
    {doms : Domains α} (h : List.Forall₂ DrawnFrom σ doms) {v : VarName}
    (hv : v ∈ doms.map Prod.fst) : lookupVal σ v ∈ lookupDom doms v := by
  induction h with
  | nil => simp at hv
  | @cons p q σ' doms' hpq hrest ih =>
    obtain ⟨pk, px⟩ := p
    obtain ⟨qk, qd⟩ := q
    obtain ⟨hk, hx⟩ := hpq
    cases hk
    by_cases hkv : pk = v
    · subst hkv
      simpa [lookupVal, lookupDom] using hx
    · simp only [List.map_cons, List.mem_cons] at hv
      rcases hv with hv | hv
      · exact absurd hv.symm hkv
      · simpa [lookupVal, lookupDom, hkv] using ih hv

/-- Build the member of `domain_product doms` that picks `f k` at each
key `k`. -/
def assignFrom {α : Type} (doms : Domains α) (f : VarName → α) : Assignment α :=
  doms.map (fun p => (p.1, f p.1))

theorem assignFrom_mem_domain_product {α : Type} {doms : Domains α}
    {f : VarName → α} (h : ∀ p ∈ doms, f p.1 ∈ p.2) :
    assignFrom doms f ∈ domain_product doms := by
  rw [mem_domain_product]
  induction doms with
  | nil => simp [assignFrom]
  | cons q rest ih =>
    refine List.Forall₂.cons ⟨rfl, h q (List.mem_cons_self _ _)⟩ ?_
    exact ih (fun p hp => h p (List.mem_cons_of_mem _ hp))

theorem lookupVal_assignFrom {α : Type} [Inhabited α] {doms : Domains α}
    {f : VarName → α} {v : VarName} (hv : v ∈ doms.map Prod.fst) :
    lookupVal (assignFrom doms f) v = f v := by
  induction doms with
  | nil => simp at hv
  | cons q rest ih =>
    obtain ⟨k, dk⟩ := q
    by_cases hk : k = v
    · subst hk
      simp [assignFrom, lookupVal]
    · simp only [List.map_cons, List.mem_cons] at hv
      rcases hv with hv | hv
      · exact absurd hv.symm hk
      · simpa [assignFrom, lookupVal, hk] using ih hv

theorem check_congr {α : Type} [Inhabited α] {c : Constraint α}
    {a b : Assignment α} (h : ∀ v ∈ c.vars, lookupVal a v = lookupVal b v) :
    c.check a = c.check b := by
  unfold Constraint.check
  congr 1
  exact List.map_congr_left h

/-! ### Restriction of a domain map to the other variables of an arc -/

/-- The other variables of an arc: the constraint's scope without the arc's
own target variable. -/
def otherVars {α : Type} (arc : Arc α) : List VarName :=
  arc.constraint.vars.filter (fun v => v != arc.var)

theorem mem_otherVars {α : Type} {arc : Arc α} {w : VarName} :
    w ∈ otherVars arc ↔ w ∈ arc.constraint.vars ∧ w ≠ arc.var := by
  simp [otherVars, List.mem_filter]

theorem lookupDom_filter_of_mem {α : Type} {d : Domains α}
    {vs : List VarName} {w : VarName} (hw : w ∈ vs) :
    lookupDom (d.filter (fun p => vs.contains p.1)) w = lookupDom d w := by
  simp only [List.elem_eq_mem]
  induction d with
  | nil => simp
  | cons p rest ih =>
    obtain ⟨k, dk⟩ := p
    by_cases hk : k = w
    · subst hk
      simp [List.filter_cons, hw, lookupDom]
    · by_cases hkvs : k ∈ vs
      · simp [List.filter_cons, hkvs, lookupDom, hk, ih]
      · simpa [List.filter_cons, hkvs, lookupDom, hk] using ih

theorem mem_keys_filter {α : Type} {d : Domains α} {vs : List VarName}
    {w : VarName} (hw : w ∈ d.map Prod.fst) (hvs : w ∈ vs) :
    w ∈ (d.filter (fun p => vs.contains p.1)).map Prod.fst := by
  simp only [List.elem_eq_mem]
  induction d with
  | nil => simp at hw
  | cons p rest ih =>
    obtain ⟨k, dk⟩ := p
    simp only [List.map_cons, List.mem_cons] at hw
    rcases hw with hw | hw
    · subst hw
      simp [List.filter_cons, hvs]
    · by_cases hkvs : k ∈ vs
      · simp only [List.filter_cons, decide_eq_true_eq, if_pos hkvs]
        simp [ih hw]
      · simpa [List.filter_cons, hkvs] using ih hw

/-- Membership in a revised domain, unfolded. -/
theorem mem_make_consistent {α : Type} [Inhabited α] {arc : Arc α}
    {d : Domains α} {x : α} :
    x ∈ make_consistent arc d ↔ x ∈ lookupDom d arc.var ∧
      ∃ σ ∈ domain_product (d.filter (fun p => (otherVars arc).contains p.1)),
        arc.constraint.check ((arc.var, x) :: σ) = true := by
  simp [make_consistent, List.mem_filter, otherVars]

/-- From a concrete support tuple found by `make_consistent` to a
specification-level `Support`, provided the scope only references names
present in the domain map. -/
theorem support_of_mem_make_consistent {α : Type} [Inhabited α]
    {arc : Arc α} {d : Domains α} {x : α}
    (hsv : ∀ w ∈ arc.constraint.vars, w ∈ d.map Prod.fst)
    (hx : x ∈ make_consistent arc d) :
    Support arc.constraint d arc.var x := by
  obtain ⟨hmem, σ, hσ, hchk⟩ := mem_make_consistent.mp hx
  refine ⟨fun w => lookupVal ((arc.var, x) :: σ) w, by simp [lookupVal], ?_, ?_⟩
  · intro w hw hwv
    have hwo : w ∈ otherVars arc := mem_otherVars.mpr ⟨hw, hwv⟩
    have hvw : arc.var ≠ w := fun h => hwv h.symm
    show lookupVal ((arc.var, x) :: σ) w ∈ lookupDom d w
    have h1 : lookupVal ((arc.var, x) :: σ) w = lookupVal σ w := by
      simp [lookupVal, hvw]
    rw [h1]
    have hkeys : w ∈ (d.filter
        (fun p => (otherVars arc).contains p.1)).map Prod.fst :=
      mem_keys_filter (hsv w hw) hwo
    have h2 := lookupVal_mem_of_forall₂ (mem_domain_product.mp hσ) hkeys
    rwa [lookupDom_filter_of_mem hwo] at h2
  · exact hchk

/-- From a specification-level `Support` back to a value that
`make_consistent` keeps (needs unique dict keys so that an entry's domain
is its looked-up domain). -/
theorem mem_make_consistent_of_support {α : Type} [Inhabited α]
    {arc : Arc α} {d : Domains α} {x : α} (hnd : NodupKeys d)
    (hsv : ∀ w ∈ arc.constraint.vars, w ∈ d.map Prod.fst)
    (hmem : x ∈ lookupDom d arc.var)
    (hsup : Support arc.constraint d arc.var x) :
    x ∈ make_consistent arc d := by
  obtain ⟨f, hfv, hfdom, hfn⟩ := hsup
  set doms := d.filter (fun p => (otherVars arc).contains p.1) with hdoms
  have hσ : assignFrom doms f ∈ domain_product doms := by
    refine assignFrom_mem_domain_product ?_
    intro p hp
    have hpd : p ∈ d := List.mem_of_mem_filter hp
    have hpo : p.1 ∈ otherVars arc := by
      have := List.of_mem_filter hp
      simpa [List.elem_eq_mem] using this
    obtain ⟨hpvars, hpne⟩ := mem_otherVars.mp hpo
    have := hfdom p.1 hpvars hpne
    rwa [lookupDom_eq_of_entry hnd hpd] at this
  refine mem_make_consistent.mpr ⟨hmem, assignFrom doms f, hσ, ?_⟩
  have hvals : ∀ v ∈ arc.constraint.vars,
      lookupVal ((arc.var, x) :: assignFrom doms f) v = f v := by
    intro v hv
    by_cases hva : v = arc.var
    · subst hva
      simp [lookupVal, hfv]
    · have hvo : v ∈ otherVars arc := mem_otherVars.mpr ⟨hv, hva⟩
      have hne : arc.var ≠ v := fun h => hva h.symm
      have hkeys : v ∈ doms.map Prod.fst := mem_keys_filter (hsv v hv) hvo
      simp [lookupVal, hne, lookupVal_assignFrom hkeys]
  unfold Constraint.check
  rw [List.map_congr_left hvals]
  exact hfn

/-- A fixpoint arc (its revision does not change its domain) is
arc-consistent. -/
theorem arcCons_of_fixpoint {α : Type} [Inhabited α] {arc : Arc α}
    {d : Domains α}
    (hsv : ∀ w ∈ arc.constraint.vars, w ∈ d.map Prod.fst)
    (hfix : make_consistent arc d = lookupDom d arc.var) :
    ArcCons arc.constraint arc.var d := by
  intro x hx
  rw [← hfix] at hx
  exact support_of_mem_make_consistent hsv hx

/-- Supports only mention the domains of the *other* scope variables, so
they transfer to any domain map agreeing there. -/
theorem support_mono_domains {α : Type} {c : Constraint α} {v : VarName}
    {x : α} {d₁ d₂ : Domains α}
    (hagree : ∀ w ∈ c.vars, w ≠ v → lookupDom d₂ w = lookupDom d₁ w)
    (hsup : Support c d₁ v x) : Support c d₂ v x := by
  obtain ⟨f, hfv, hfdom, hfn⟩ := hsup
  exact ⟨f, hfv, fun w hw hwv => (hagree w hw hwv) ▸ hfdom w hw hwv, hfn⟩

/-- Revising an arc leaves the arc itself consistent: each surviving value
keeps its support, whose other-variable values live in unchanged
domains. -/
theorem arcCons_self_after_update {α : Type} [DecidableEq α] [Inhabited α]
    {arc : Arc α} {d : Domains α}
    (hsv : ∀ w ∈ arc.constraint.vars, w ∈ d.map Prod.fst) :
    ArcCons arc.constraint arc.var
      (dictUpdate d arc.var (make_consistent arc d)) := by
  intro x hx
  rw [lookupDom_dictUpdate_self] at hx
  refine support_mono_domains ?_ (support_of_mem_make_consistent hsv hx)
  intro w _ hwv
  exact lookupDom_dictUpdate_ne d _ hwv

/-- The key step of the algorithm's re-enqueueing policy: revising
variable `u` of a constraint never breaks the consistency of the *same*
constraint's arcs toward its other variables — any support tuple for the
other arc is itself a support for its `u`-component, which therefore
survives the revision. -/
theorem arcCons_same_constraint_after_update {α : Type} [DecidableEq α]
    [Inhabited α] {arc : Arc α} {d : Domains α} {u : VarName}
    (hnd : NodupKeys d)
    (hsv : ∀ w ∈ arc.constraint.vars, w ∈ d.map Prod.fst)
    (hu : u ≠ arc.var)
    (hcons : ArcCons arc.constraint u d) :
    ArcCons arc.constraint u
      (dictUpdate d arc.var (make_consistent arc d)) := by
  intro x hx
  rw [lookupDom_dictUpdate_ne d _ hu] at hx
  obtain ⟨f, hfv, hfdom, hfn⟩ := hcons x hx
  refine ⟨f, hfv, ?_, hfn⟩
  intro w hw hwu
  by_cases hwa : w = arc.var
  · have hfw : f w ∈ lookupDom d w := hfdom w hw hwu
    rw [hwa] at hfw ⊢
    rw [lookupDom_dictUpdate_self]
    refine mem_make_consistent_of_support hnd hsv hfw ?_
    refine ⟨f, rfl, ?_, hfn⟩
    intro t ht htw
    by_cases htu : t = u
    · subst htu
      rw [hfv]
      exact hx
    · exact hfdom t ht htu
  · rw [lookupDom_dictUpdate_ne d _ hwa]
    exact hfdom w hw hwu

/-- Revising `arc.var` preserves the consistency of any arc whose scope
does not contain `arc.var` (nothing it reads changed), and of any arc
*targeting* `arc.var` (its domain only shrank, other domains unchanged). -/
theorem arcCons_other_after_update {α : Type} [DecidableEq α] [Inhabited α]
    {arc : Arc α} {d : Domains α} {c : Constraint α} {u : VarName}
    (hout : arc.var ∉ c.vars ∨ u = arc.var)
    (hcons : ArcCons c u d) :
    ArcCons c u (dictUpdate d arc.var (make_consistent arc d)) := by
  intro x hx
  have hagree : ∀ w ∈ c.vars, w ≠ u → lookupDom
      (dictUpdate d arc.var (make_consistent arc d)) w = lookupDom d w := by
    intro w hw hwu
    rcases hout with hout | hout
    · exact lookupDom_dictUpdate_ne d _ (fun h => hout (h ▸ hw))
    · exact lookupDom_dictUpdate_ne d _ (fun h => hwu (h.trans hout.symm))
  have hxd : x ∈ lookupDom d u := by
    by_cases hu : u = arc.var
    · subst hu
      rw [lookupDom_dictUpdate_self] at hx
      exact (make_consistent_sublist arc d).subset hx
    · rwa [lookupDom_dictUpdate_ne d _ hu] at hx
  exact support_mono_domains hagree (hcons x hxd)

/-! ### Agenda bookkeeping -/

theorem arc_beq_iff {α : Type} {a b : Arc α} :
    Arc.beq a b = true ↔ a.constraint.id = b.constraint.id ∧ a.var = b.var := by
  simp [Arc.beq]

theorem arc_beq_refl {α : Type} (a : Arc α) : Arc.beq a a = true :=
  arc_beq_iff.mpr ⟨rfl, rfl⟩

theorem arcMem_cons {α : Type} {b x : Arc α} {l : List (Arc α)} :
    arcMem b (x :: l) = (Arc.beq b x || arcMem b l) := by
  simp [arcMem]

theorem arcMem_iff {α : Type} {b : Arc α} {l : List (Arc α)} :
    arcMem b l = true ↔ ∃ x ∈ l, Arc.beq b x = true := by
  simp [arcMem]

theorem arcMem_addArc {α : Type} {b a : Arc α} {ag : List (Arc α)} :
    arcMem b (addArc ag a) = true ↔ arcMem b ag = true ∨ Arc.beq b a = true := by
  unfold addArc
  by_cases hmem : arcMem a ag
  · rw [if_pos hmem]
    constructor
    · exact Or.inl
    · rintro (h | h)
      · exact h
      · obtain ⟨x, hx, hax⟩ := arcMem_iff.mp hmem
        obtain ⟨h1, h2⟩ := arc_beq_iff.mp h
        obtain ⟨h3, h4⟩ := arc_beq_iff.mp hax
        exact arcMem_iff.mpr ⟨x, hx, arc_beq_iff.mpr ⟨h1.trans h3, h2.trans h4⟩⟩
  · rw [if_neg hmem]
    simp only [arcMem_iff] at *
    constructor
    · rintro ⟨x, hx, hbx⟩
      rcases List.mem_append.mp hx with hx | hx
      · exact Or.inl ⟨x, hx, hbx⟩
      · simp only [List.mem_singleton] at hx
        exact Or.inr (hx ▸ hbx)
    · rintro (⟨x, hx, hbx⟩ | h)
      · exact ⟨x, List.mem_append_left _ hx, hbx⟩
      · exact ⟨a, List.mem_append_right _ (List.mem_singleton_self a), h⟩

theorem arcMem_foldl_addArc {α : Type} {b : Arc α} {L init : List (Arc α)} :
    arcMem b (L.foldl addArc init) = true ↔
      arcMem b init = true ∨ ∃ i ∈ L, Arc.beq b i = true := by
  induction L generalizing init with
  | nil => simp
  | cons i L ih =>
    rw [List.foldl_cons, ih, arcMem_addArc]
    constructor
    · rintro ((h | h) | ⟨j, hj, hbj⟩)
      · exact Or.inl h
      · exact Or.inr ⟨i, List.mem_cons_self _ _, h⟩
      · exact Or.inr ⟨j, List.mem_cons_of_mem _ hj, hbj⟩
    · rintro (h | ⟨j, hj, hbj⟩)
      · exact Or.inl (Or.inl h)
      · rcases List.mem_cons.mp hj with rfl | hj
        · exact Or.inl (Or.inr hbj)
        · exact Or.inr ⟨j, hj, hbj⟩

theorem mem_addArc {α : Type} {x a : Arc α} {ag : List (Arc α)}
    (hx : x ∈ addArc ag a) : x ∈ ag ∨ x = a := by
  unfold addArc at hx
  by_cases hmem : arcMem a ag
  · rw [if_pos hmem] at hx
    exact Or.inl hx
  · rw [if_neg hmem] at hx
    rcases List.mem_append.mp hx with h | h
    · exact Or.inl h
    · exact Or.inr (List.mem_singleton.mp h)

theorem mem_foldl_addArc {α : Type} {x : Arc α} {L init : List (Arc α)}
    (hx : x ∈ L.foldl addArc init) : x ∈ init ∨ x ∈ L := by
  induction L generalizing init with
  | nil => exact Or.inl hx
  | cons i L ih =>
    rw [List.foldl_cons] at hx
    rcases ih hx with h | h
    · rcases mem_addArc h with h' | h'
      · exact Or.inl h'
      · exact Or.inr (h' ▸ List.mem_cons_self _ _)
    · exact Or.inr (List.mem_cons_of_mem _ h)

/-! ### Unfolding equations for the propagation loop -/

theorem acLoop_nil {α : Type} [DecidableEq α] [Inhabited α]
    (arcs : List (Arc α)) (d : Domains α) : acLoop arcs [] d = d := by
  rw [acLoop]

theorem acLoop_cons_fix {α : Type} [DecidableEq α] [Inhabited α]
    (arcs : List (Arc α)) {current : Arc α} (rest : List (Arc α))
    {d : Domains α}
    (h : make_consistent current d = lookupDom d current.var) :
    acLoop arcs (current :: rest) d = acLoop arcs rest d := by
  rw [acLoop]
  simp only [h, dif_pos]

theorem acLoop_cons_rev {α : Type} [DecidableEq α] [Inhabited α]
    (arcs : List (Arc α)) {current : Arc α} (rest : List (Arc α))
    {d : Domains α}
    (h : make_consistent current d ≠ lookupDom d current.var) :
    acLoop arcs (current :: rest) d =
      acLoop arcs ((invalidated_arcs current arcs).foldl addArc rest)
        (dictUpdate d current.var (make_consistent current d)) := by
  rw [acLoop]
  simp only [h, dif_neg, not_false_iff]

theorem mem_invalidated_arcs {α : Type} {cur b : Arc α}
    {arcs : List (Arc α)} :
    b ∈ invalidated_arcs cur arcs ↔ b ∈ arcs ∧
      b.constraint.id ≠ cur.constraint.id ∧
      cur.var ∈ b.constraint.vars ∧ b.var ≠ cur.var := by
  simp [invalidated_arcs, List.mem_filter, List.elem_eq_mem, and_assoc]

/-- Invariant of the propagation loop: every arc of the network that is not
pending on the agenda is consistent; when the agenda empties, every arc
is.  The hypotheses are the structural facts the loop preserves: every
agenda member is a network arc, every network arc targets a variable of
its own scope, scopes only mention dict keys, ids are faithful, keys are
unique. -/
theorem acLoop_arcCons {α : Type} [DecidableEq α] [Inhabited α]
    (arcs : List (Arc α))
    (hvar : ∀ b ∈ arcs, b.var ∈ b.constraint.vars)
    (hid : ∀ b ∈ arcs, ∀ b' ∈ arcs,
      b.constraint.id = b'.constraint.id → b.constraint = b'.constraint)
    (agenda : List (Arc α)) (d : Domains α)
    (hnd : NodupKeys d)
    (hsv : ∀ b ∈ arcs, ∀ w ∈ b.constraint.vars, w ∈ d.map Prod.fst)
    (hag : ∀ x ∈ agenda, x ∈ arcs)
    (hinv : ∀ b ∈ arcs, arcMem b agenda = false →
      ArcCons b.constraint b.var d) :
    ∀ b ∈ arcs, ArcCons b.constraint b.var (acLoop arcs agenda d) := by
  induction agenda, d using acLoop.induct arcs with
  | case1 d =>
    rw [acLoop_nil]
    intro b hb
    exact hinv b hb (by simp [arcMem])
  | case2 current rest d new_domain old_domain hfix ih =>
    rw [acLoop_cons_fix arcs rest hfix]
    have hcur : current ∈ arcs := hag current (List.mem_cons_self _ _)
    refine ih hnd hsv (fun x hx => hag x (List.mem_cons_of_mem _ hx)) ?_
    intro b hb hbm
    by_cases hbc : Arc.beq b current = true
    · have hcc : b.constraint = current.constraint :=
        hid b hb current hcur (arc_beq_iff.mp hbc).1
      have hbv : b.var = current.var := (arc_beq_iff.mp hbc).2
      rw [hcc, hbv]
      exact arcCons_of_fixpoint (hsv current hcur) hfix
    · refine hinv b hb ?_
      rw [arcMem_cons]
      simp [hbc, hbm]
  | case3 current rest d new_domain old_domain hne ih =>
    rw [acLoop_cons_rev arcs rest hne]
    have hcur : current ∈ arcs := hag current (List.mem_cons_self _ _)
    have hcvk : current.var ∈ d.map Prod.fst :=
      hsv current hcur current.var (hvar current hcur)
    have hkeys' : (dictUpdate d current.var
        (make_consistent current d)).map Prod.fst = d.map Prod.fst :=
      dictUpdate_keys_of_mem _ hcvk
    refine ih ?_ ?_ ?_ ?_
    · unfold NodupKeys
      rw [hkeys']
      exact hnd
    · intro b hb w hw
      rw [hkeys']
      exact hsv b hb w hw
    · intro x hx
      rcases mem_foldl_addArc hx with h | h
      · exact hag x (List.mem_cons_of_mem _ h)
      · exact List.mem_of_mem_filter h
    · intro b hb hbm
      have hnot : ¬ (arcMem b rest = true ∨
          ∃ i ∈ invalidated_arcs current arcs, Arc.beq b i = true) := by
        intro h
        have := arcMem_foldl_addArc.mpr h
        rw [this] at hbm
        exact absurd hbm (by decide)
      obtain ⟨h1, h2⟩ := not_or.mp hnot
      have h1' : arcMem b rest = false := by
        cases hmem : arcMem b rest
        · rfl
        · exact absurd hmem h1
      push_neg at h2
      by_cases hbc : Arc.beq b current = true
      · have hcc : b.constraint = current.constraint :=
          hid b hb current hcur (arc_beq_iff.mp hbc).1
        have hbv : b.var = current.var := (arc_beq_iff.mp hbc).2
        rw [hcc, hbv]
        exact arcCons_self_after_update (hsv current hcur)
      · have hbag : arcMem b (current :: rest) = false := by
          rw [arcMem_cons]
          simp [hbc, h1']
        have hconsb : ArcCons b.constraint b.var d := hinv b hb hbag
        by_cases hbid : b.constraint.id = current.constraint.id
        · have hcc : b.constraint = current.constraint :=
            hid b hb current hcur hbid
          have hbvne : b.var ≠ current.var :=
            fun h => hbc (arc_beq_iff.mpr ⟨hbid, h⟩)
          rw [hcc] at hconsb ⊢
          exact arcCons_same_constraint_after_update hnd
            (hsv current hcur) hbvne hconsb
        · have hbnotinval : b ∉ invalidated_arcs current arcs :=
            fun h => (h2 b h) (arc_beq_refl b)
          have hcase : current.var ∉ b.constraint.vars ∨
              b.var = current.var := by
            by_contra hc
            push_neg at hc
            exact hbnotinval
              (mem_invalidated_arcs.mpr ⟨hb, hbid, hc.1, hc.2⟩)
          exact arcCons_other_after_update hcase hconsb

/-! ### Structural facts about the propagation loop -/

theorem lookupDom_ne_nil_of_revised {α : Type} [Inhabited α]
    {current : Arc α} {d : Domains α}
    (hne : make_consistent current d ≠ lookupDom d current.var) :
    lookupDom d current.var ≠ [] := by
  intro h
  apply hne
  have hsub := make_consistent_sublist current d
  rw [h] at hsub
  rw [List.sublist_nil.mp hsub, h]

theorem acLoop_keys {α : Type} [DecidableEq α] [Inhabited α]
    (arcs agenda : List (Arc α)) (d : Domains α) :
    (acLoop arcs agenda d).map Prod.fst = d.map Prod.fst := by
  induction agenda, d using acLoop.induct arcs with
  | case1 d => rw [acLoop_nil]
  | case2 current rest d new_domain old_domain hfix ih =>
    rw [acLoop_cons_fix arcs rest hfix]
    exact ih
  | case3 current rest d new_domain old_domain hne ih =>
    rw [acLoop_cons_rev arcs rest hne]
    have hk : current.var ∈ d.map Prod.fst :=
      mem_keys_of_lookupDom_ne_nil (lookupDom_ne_nil_of_revised hne)
    rw [ih, dictUpdate_keys_of_mem _ hk]

theorem acLoop_lookup_sublist {α : Type} [DecidableEq α] [Inhabited α]
    (arcs agenda : List (Arc α)) (d : Domains α) (v : VarName) :
    List.Sublist (lookupDom (acLoop arcs agenda d) v) (lookupDom d v) := by
  induction agenda, d using acLoop.induct arcs with
  | case1 d =>
    rw [acLoop_nil]
  | case2 current rest d new_domain old_domain hfix ih =>
    rw [acLoop_cons_fix arcs rest hfix]
    exact ih
  | case3 current rest d new_domain old_domain hne ih =>
    rw [acLoop_cons_rev arcs rest hne]
    refine ih.trans ?_
    by_cases hv : v = current.var
    · subst hv
      rw [lookupDom_dictUpdate_self]
      exact make_consistent_sublist current d
    · rw [lookupDom_dictUpdate_ne d _ hv]

theorem lookupDom_nodup {α : Type} {d : Domains α} (hnd : NodupDoms d)
    (v : VarName) : (lookupDom d v).Nodup := by
  induction d with
  | nil => simp [lookupDom]
  | cons p rest ih =>
    obtain ⟨k, dk⟩ := p
    by_cases hk : k = v
    · subst hk
      simpa [lookupDom] using hnd (k, dk) (List.mem_cons_self _ _)
    · simp only [lookupDom, if_neg hk]
      exact ih (fun q hq => hnd q (List.mem_cons_of_mem _ hq))

theorem nodupDoms_dictUpdate {α : Type} {d : Domains α} {v : VarName}
    {nd : List α} (hd : NodupDoms d) (hnd : nd.Nodup) :
    NodupDoms (dictUpdate d v nd) := by
  intro p hp
  rcases mem_dictUpdate hp with h | h
  · exact hd p h
  · rw [h]
    exact hnd

theorem acLoop_nodupDoms {α : Type} [DecidableEq α] [Inhabited α]
    (arcs agenda : List (Arc α)) {d : Domains α} (hd : NodupDoms d) :
    NodupDoms (acLoop arcs agenda d) := by
  induction agenda, d using acLoop.induct arcs with
  | case1 d =>
    rw [acLoop_nil]
    exact hd
  | case2 current rest d new_domain old_domain hfix ih =>
    rw [acLoop_cons_fix arcs rest hfix]
    exact ih hd
  | case3 current rest d new_domain old_domain hne ih =>
    rw [acLoop_cons_rev arcs rest hne]
    refine ih (nodupDoms_dictUpdate hd ?_)
    exact List.Nodup.filter _ (lookupDom_nodup hd current.var)

theorem nodupKeys_of_keys_eq {α : Type} {d d' : Domains α}
    (h : d'.map Prod.fst = d.map Prod.fst) (hnd : NodupKeys d) :
    NodupKeys d' := by
  unfold NodupKeys
  rw [h]
  exact hnd

/-! ### The arc-consistency contract of `arc_consistency` -/

theorem mem_get_initial_arcs {α : Type} {csp : CSP α} {b : Arc α} :
    b ∈ get_initial_arcs csp ↔
      b.constraint ∈ csp.constraints ∧ b.var ∈ b.constraint.vars := by
  simp only [get_initial_arcs, List.mem_flatMap, List.mem_map]
  constructor
  · rintro ⟨c, hc, v, hv, rfl⟩
    exact ⟨hc, hv⟩
  · rintro ⟨hc, hv⟩
    exact ⟨b.constraint, hc, b.var, hv, rfl⟩

/-- At the fixpoint returned by `arc_consistency`, every arc of the
network is consistent. -/
theorem arc_consistency_arcCons {α : Type} [DecidableEq α] [Inhabited α]
    {csp : CSP α} (hnd : NodupKeys csp.vars) (hsv : ScopesValid csp)
    (hid : IdSeparated csp.constraints) :
    ∀ c ∈ csp.constraints, ∀ v ∈ c.vars,
      ArcCons c v (arc_consistency csp) := by
  intro c hc v hv
  have hb : (⟨c, v⟩ : Arc α) ∈ get_initial_arcs csp :=
    mem_get_initial_arcs.mpr ⟨hc, hv⟩
  refine acLoop_arcCons (get_initial_arcs csp) ?_ ?_ _ csp.vars hnd ?_ ?_ ?_
    ⟨c, v⟩ hb
  · intro b hbm
    exact (mem_get_initial_arcs.mp hbm).2
  · intro b hbm b' hbm' hidb
    exact hid b.constraint (mem_get_initial_arcs.mp hbm).1
      b'.constraint (mem_get_initial_arcs.mp hbm').1 hidb
  · intro b hbm w hw
    exact hsv b.constraint (mem_get_initial_arcs.mp hbm).1 w hw
  · intro x hx
    rcases mem_foldl_addArc hx with h | h
    · simp at h
    · exact h
  · intro b hbm habs
    have : arcMem b ((get_initial_arcs csp).foldl addArc []) = true :=
      arcMem_foldl_addArc.mpr (Or.inr ⟨b, hbm, arc_beq_refl b⟩)
    rw [this] at habs
    exact absurd habs (by decide)

/-! ### Fixpoint: consistent domains are left unchanged -/

theorem make_consistent_eq_filter {α : Type} [Inhabited α] (arc : Arc α)
    (d : Domains α) :
    make_consistent arc d = (lookupDom d arc.var).filter (fun value =>
      (domain_product (d.filter (fun p => (otherVars arc).contains p.1))).any
        (fun ov => arc.constraint.check ((arc.var, value) :: ov))) := rfl

/-- A consistent arc's revision keeps its whole domain. -/
theorem make_consistent_eq_of_arcCons {α : Type} [Inhabited α]
    {arc : Arc α} {d : Domains α} (hnd : NodupKeys d)
    (hsv : ∀ w ∈ arc.constraint.vars, w ∈ d.map Prod.fst)
    (hcons : ArcCons arc.constraint arc.var d) :
    make_consistent arc d = lookupDom d arc.var := by
  rw [make_consistent_eq_filter]
  refine List.filter_eq_self.mpr ?_
  intro x hx
  have hmem : x ∈ make_consistent arc d :=
    mem_make_consistent_of_support hnd hsv hx (hcons x hx)
  rw [make_consistent_eq_filter] at hmem
  exact (List.mem_filter.mp hmem).2

/-- If every pending arc's revision is a no-op, the loop drains the agenda
without touching the domains. -/
theorem acLoop_id_of_fix {α : Type} [DecidableEq α] [Inhabited α]
    (arcs agenda : List (Arc α)) (d : Domains α)
    (hfix : ∀ b ∈ agenda, make_consistent b d = lookupDom d b.var) :
    acLoop arcs agenda d = d := by
  induction agenda with
  | nil => exact acLoop_nil arcs d
  | cons current rest ih =>
    rw [acLoop_cons_fix arcs rest (hfix current (List.mem_cons_self _ _))]
    exact ih (fun b hb => hfix b (List.mem_cons_of_mem _ hb))

/-- Keys of the domain map returned by `arc_consistency`. -/
theorem arc_consistency_keys {α : Type} [DecidableEq α] [Inhabited α]
    (csp : CSP α) :
    (arc_consistency csp).map Prod.fst = csp.vars.map Prod.fst :=
  acLoop_keys _ _ _

/-- Pointwise monotone shrink of `arc_consistency`. -/
theorem arc_consistency_lookup_sublist {α : Type} [DecidableEq α]
    [Inhabited α] (csp : CSP α) (v : VarName) :
    List.Sublist (lookupDom (arc_consistency csp) v)
      (lookupDom csp.vars v) :=
  acLoop_lookup_sublist _ _ _ v

theorem arc_consistency_nodupDoms {α : Type} [DecidableEq α] [Inhabited α]
    {csp : CSP α} (hd : NodupDoms csp.vars) :
    NodupDoms (arc_consistency csp) :=
  acLoop_nodupDoms _ _ hd

/-- Re-running `arc_consistency` on its own output (same constraints and
representation) returns the output unchanged. -/
theorem arc_consistency_idempotent {α : Type} [DecidableEq α] [Inhabited α]
    {csp : CSP α} (hnd : NodupKeys csp.vars) (hsv : ScopesValid csp)
    (hid : IdSeparated csp.constraints) :
    arc_consistency { vars := arc_consistency csp,
                      constraints := csp.constraints,
                      representation := csp.representation } =
      arc_consistency csp := by
  have hndR : NodupKeys (arc_consistency csp) :=
    nodupKeys_of_keys_eq (arc_consistency_keys csp) hnd
  have hcons := arc_consistency_arcCons hnd hsv hid
  apply acLoop_id_of_fix
  intro b hb
  have hbarcs : b ∈ get_initial_arcs csp := by
    rcases mem_foldl_addArc hb with h | h
    · simp at h
    · exact h
  obtain ⟨hbc, hbv⟩ := mem_get_initial_arcs.mp hbarcs
  refine make_consistent_eq_of_arcCons hndR ?_ (hcons b.constraint hbc b.var hbv)
  intro w hw
  rw [arc_consistency_keys csp]
  exact hsv b.constraint hbc w hw

/-! ### Properties of `partition_domain` -/

theorem partition_domain_sublists {α : Type} (l : List α) :
    List.Sublist (partition_domain l).1 l ∧
      List.Sublist (partition_domain l).2 l := by
  induction l with
  | nil => simp [partition_domain]
  | cons x rest ih =>
    simp only [partition_domain]
    exact ⟨List.Sublist.cons₂ x ih.2, List.Sublist.cons x ih.1⟩

theorem mem_partition_domain {α : Type} {l : List α} {x : α} :
    x ∈ l ↔ x ∈ (partition_domain l).1 ∨ x ∈ (partition_domain l).2 := by
  induction l with
  | nil => simp [partition_domain]
  | cons y rest ih =>
    simp only [partition_domain, List.mem_cons, ih]
    tauto

theorem partition_domain_lengths {α : Type} (l : List α) :
    (partition_domain l).1.length = (l.length + 1) / 2 ∧
      (partition_domain l).2.length = l.length / 2 := by
  induction l with
  | nil => simp [partition_domain]
  | cons x rest ih =>
    simp only [partition_domain, List.length_cons]
    omega

theorem partition_domain_disjoint {α : Type} {l : List α} (hnd : l.Nodup) :
    ∀ x ∈ (partition_domain l).1, x ∉ (partition_domain l).2 := by
  induction l with
  | nil => simp [partition_domain]
  | cons y rest ih =>
    obtain ⟨hy, hrest⟩ := List.nodup_cons.mp hnd
    simp only [partition_domain, List.mem_cons]
    rintro x (rfl | hx)
    · intro hx1
      exact hy (mem_partition_domain.mpr (Or.inl hx1))
    · intro hx1
      exact ih hrest x hx1 hx

theorem partition_domain_ne_nil {α : Type} {l : List α}
    (h : 2 ≤ l.length) :
    (partition_domain l).1 ≠ [] ∧ (partition_domain l).2 ≠ [] := by
  have hl := partition_domain_lengths l
  constructor
  · intro hnil
    rw [hnil] at hl
    simp at hl
    omega
  · intro hnil
    rw [hnil] at hl
    simp at hl
    omega

/-! ### Split-variable selection -/

theorem get_split_var_spec {α : Type} {domains : Domains α}
    (he : some_empty domains = false) (hu : unique domains = false) :
    ∃ p ∈ domains, 1 < p.2.length ∧ get_split_var domains = some p.1 := by
  have hex : ∃ p ∈ domains, 1 < p.2.length := by
    have hu' : ¬ ∀ p ∈ domains, p.2.length = 1 := by
      intro hall
      have : unique domains = true := by
        simp only [unique, List.all_eq_true]
        intro p hp
        simp [hall p hp]
      rw [this] at hu
      exact absurd hu (by decide)
    push_neg at hu'
    obtain ⟨p, hp, hlen⟩ := hu'
    have hne : p.2 ≠ [] := by
      intro hnil
      have : some_empty domains = true := by
        simp only [some_empty, List.any_eq_true]
        exact ⟨p, hp, by simp [hnil]⟩
      rw [this] at he
      exact absurd he (by decide)
    have : 1 ≤ p.2.length := List.length_pos.mpr hne
    exact ⟨p, hp, by omega⟩
  have hfind : (domains.find? (fun p => decide (1 < p.2.length))).isSome := by
    rw [List.find?_isSome]
    obtain ⟨p, hp, hlen⟩ := hex
    exact ⟨p, hp, by simpa using hlen⟩
  obtain ⟨q, hq⟩ := Option.isSome_iff_exists.mp hfind
  refine ⟨q, List.mem_of_find?_eq_some hq, ?_, ?_⟩
  · have := List.find?_some hq
    simpa using this
  · simp [get_split_var, hq]

/-! ### Lifting assignments between pointwise-shrunken domain maps -/

theorem lookupDom_eq_nil_of_not_mem_keys {α : Type} {d : Domains α}
    {v : VarName} (h : v ∉ d.map Prod.fst) : lookupDom d v = [] := by
  by_cases hnil : lookupDom d v = []
  · exact hnil
  · exact absurd (mem_keys_of_lookupDom_ne_nil hnil) h

theorem forall₂_drawnFrom_lift {α : Type} {a : Assignment α}
    {d' d : Domains α} (hnd : NodupKeys d)
    (hkeys : d'.map Prod.fst = d.map Prod.fst)
    (hsub : ∀ v, List.Sublist (lookupDom d' v) (lookupDom d v))
    (hf : List.Forall₂ DrawnFrom a d') : List.Forall₂ DrawnFrom a d := by
  induction d generalizing a d' with
  | nil =>
    have : d' = [] := by
      cases d' with
      | nil => rfl
      | cons q r => simp at hkeys
    subst this
    cases hf
    exact List.Forall₂.nil
  | cons q rest ih =>
    obtain ⟨k, dk⟩ := q
    cases d' with
    | nil => simp at hkeys
    | cons q' rest' =>
      obtain ⟨k', dk'⟩ := q'
      simp only [List.map_cons, List.cons.injEq] at hkeys
      obtain ⟨hk, hkeys'⟩ := hkeys
      cases hk
      cases hf with
      | cons hpq hrest =>
        obtain ⟨hnk, hndrest⟩ := List.nodup_cons.mp hnd
        refine List.Forall₂.cons ⟨hpq.1, ?_⟩ ?_
        · have h1 : lookupDom ((k, dk') :: rest') k = dk' := by
            simp [lookupDom]
          have h2 : lookupDom ((k, dk) :: rest) k = dk := by
            simp [lookupDom]
          have := hsub k
          rw [h1, h2] at this
          exact this.subset hpq.2
        · refine ih hndrest hkeys' ?_ hrest
          intro v
          by_cases hv : v = k
          · subst hv
            rw [lookupDom_eq_nil_of_not_mem_keys (hkeys' ▸ hnk),
              lookupDom_eq_nil_of_not_mem_keys hnk]
          · have := hsub v
            have hv' : k ≠ v := fun h => hv h.symm
            simpa [lookupDom, hv'] using this

/-! ### The recursion-depth measure of the search -/

theorem splitSlack_dictUpdate_lt {α : Type} (d : Domains α) (v : VarName)
    (nd : List α) (hlt : nd.length < (lookupDom d v).length)
    (hpos : 1 ≤ nd.length) :
    splitSlack (dictUpdate d v nd) < splitSlack d := by
  induction d with
  | nil => simp [lookupDom] at hlt
  | cons p rest ih =>
    obtain ⟨k, dk⟩ := p
    by_cases hk : k = v
    · subst hk
      simp [lookupDom] at hlt
      simp [dictUpdate, splitSlack]
      omega
    · simp only [lookupDom, if_neg hk] at hlt
      have := ih hlt
      simp only [dictUpdate, if_neg hk, splitSlack, List.map_cons,
        List.sum_cons]
      simp only [splitSlack] at this
      omega

theorem splitSlack_mono {α : Type} {d' d : Domains α} (hnd : NodupKeys d)
    (hkeys : d'.map Prod.fst = d.map Prod.fst)
    (hsub : ∀ v, List.Sublist (lookupDom d' v) (lookupDom d v)) :
    splitSlack d' ≤ splitSlack d := by
  induction d generalizing d' with
  | nil =>
    cases d' with
    | nil => exact le_refl _
    | cons q r => simp at hkeys
  | cons q rest ih =>
    obtain ⟨k, dk⟩ := q
    cases d' with
    | nil => simp at hkeys
    | cons q' rest' =>
      obtain ⟨k', dk'⟩ := q'
      simp only [List.map_cons, List.cons.injEq] at hkeys
      obtain ⟨hk, hkeys'⟩ := hkeys
      cases hk
      obtain ⟨hnk, hndrest⟩ := List.nodup_cons.mp hnd
      have hhead : dk'.length ≤ dk.length := by
        have := (hsub k).length_le
        simpa [lookupDom] using this
      have htail : splitSlack rest' ≤ splitSlack rest := by
        refine ih hndrest hkeys' ?_
        intro v
        by_cases hv : v = k
        · subst hv
          rw [lookupDom_eq_nil_of_not_mem_keys (hkeys' ▸ hnk),
            lookupDom_eq_nil_of_not_mem_keys hnk]
        · have := hsub v
          have hv' : k ≠ v := fun h => hv h.symm
          simpa [lookupDom, hv'] using this
      simp only [splitSlack, List.map_cons, List.sum_cons]
      simp only [splitSlack] at htail
      omega

/-! ### Frame facts about `make_split_csp` -/

theorem make_split_csp_constraints {α : Type} (csp : CSP α)
    (nd : Domains α) (v : VarName) (s : List α) :
    (make_split_csp csp nd v s).constraints = csp.constraints := rfl

theorem make_split_csp_representation {α : Type} (csp : CSP α)
    (nd : Domains α) (v : VarName) (s : List α) :
    (make_split_csp csp nd v s).representation = csp.representation := rfl

theorem make_split_csp_lookup_self {α : Type} (csp : CSP α)
    (nd : Domains α) (v : VarName) (s : List α) :
    lookupDom (make_split_csp csp nd v s).vars v = s :=
  lookupDom_dictUpdate_self nd v s

theorem make_split_csp_lookup_ne {α : Type} (csp : CSP α)
    (nd : Domains α) {v w : VarName} (s : List α) (hw : w ≠ v) :
    lookupDom (make_split_csp csp nd v s).vars w = lookupDom nd w :=
  lookupDom_dictUpdate_ne nd s hw

theorem make_split_csp_keys {α : Type} (csp : CSP α) {nd : Domains α}
    {v : VarName} (s : List α) (hv : v ∈ nd.map Prod.fst) :
    (make_split_csp csp nd v s).vars.map Prod.fst = nd.map Prod.fst :=
  dictUpdate_keys_of_mem s hv

/-! ### The split branch of the search: shared context -/

/-- Everything the recursive case of `ds_fuel` provides about a chosen
split variable. -/
theorem split_var_context {α : Type} [DecidableEq α] [Inhabited α]
    {csp : CSP α} (hnd : NodupKeys csp.vars)
    (he : some_empty (arc_consistency csp) = false)
    (hu : unique (arc_consistency csp) = false) :
    ∃ v, get_split_var (arc_consistency csp) = some v ∧
      v ∈ (arc_consistency csp).map Prod.fst ∧
      2 ≤ (lookupDom (arc_consistency csp) v).length := by
  obtain ⟨p, hp, hlen, hsome⟩ := get_split_var_spec he hu
  have hndR : NodupKeys (arc_consistency csp) :=
    nodupKeys_of_keys_eq (arc_consistency_keys csp) hnd
  refine ⟨p.1, hsome, List.mem_map_of_mem Prod.fst hp, ?_⟩
  rw [lookupDom_eq_of_entry hndR hp]
  omega

/-- The two CSPs recursed into have strictly smaller slack. -/
theorem split_child_slack {α : Type} [DecidableEq α] [Inhabited α]
    {csp : CSP α} (hnd : NodupKeys csp.vars) {v : VarName}
    (part : List α)
    (hlen : part.length < (lookupDom (arc_consistency csp) v).length)
    (hpos : 1 ≤ part.length) :
    splitSlack (make_split_csp csp (arc_consistency csp) v part).vars <
      splitSlack csp.vars := by
  have h1 : splitSlack (dictUpdate (arc_consistency csp) v part) <
      splitSlack (arc_consistency csp) :=
    splitSlack_dictUpdate_lt _ v part hlen hpos
  have h2 : splitSlack (arc_consistency csp) ≤ splitSlack csp.vars :=
    splitSlack_mono hnd (arc_consistency_keys csp)
      (arc_consistency_lookup_sublist csp)
  exact lt_of_lt_of_le h1 h2

/-- Any fuel of at least `splitSlack csp.vars + 1` produces the same
search result: the recursion depth of `domain_splitting` is bounded by the
sum of `domain size - 1` over all variables. -/
theorem ds_fuel_stable {α : Type} [DecidableEq α] [Inhabited α] :
    ∀ (f : Nat) (csp : CSP α) (g : Nat), NodupKeys csp.vars →
      splitSlack csp.vars + 1 ≤ f → splitSlack csp.vars + 1 ≤ g →
      ds_fuel f csp = ds_fuel g csp := by
  intro f
  induction f using Nat.strong_induction_on with
  | _ f ih =>
    intro csp g hnd hf hg
    obtain ⟨f', rfl⟩ : ∃ f', f = f' + 1 := ⟨f - 1, by omega⟩
    obtain ⟨g', rfl⟩ : ∃ g', g = g' + 1 := ⟨g - 1, by omega⟩
    simp only [ds_fuel]
    by_cases he : some_empty (arc_consistency csp) = true
    · simp [he]
    · have he' : some_empty (arc_consistency csp) = false :=
        Bool.not_eq_true _ ▸ he
      by_cases hu : unique (arc_consistency csp) = true
      · simp [he, hu]
      · have hu' : unique (arc_consistency csp) = false :=
          Bool.not_eq_true _ ▸ hu
        obtain ⟨v, hsome, hvk, hlen2⟩ := split_var_context hnd he' hu'
        simp only [he, hu, if_false, hsome]
        have hlens := partition_domain_lengths
          (lookupDom (arc_consistency csp) v)
        set n := (lookupDom (arc_consistency csp) v).length with hn
        have hkeysR : (arc_consistency csp).map Prod.fst =
            csp.vars.map Prod.fst := arc_consistency_keys csp
        have hchild : ∀ part : List α, part.length < n → 1 ≤ part.length →
            ds_fuel f' (make_split_csp csp (arc_consistency csp) v part) =
            ds_fuel g' (make_split_csp csp (arc_consistency csp) v part) := by
          intro part hplt hppos
          have hndc : NodupKeys
              (make_split_csp csp (arc_consistency csp) v part).vars := by
            refine nodupKeys_of_keys_eq ?_ hnd
            rw [make_split_csp_keys csp part hvk, hkeysR]
          have hslack := split_child_slack hnd part hplt hppos
          exact ih f' (by omega) _ g' hndc (by omega) (by omega)
        rw [hchild _ (by omega) (by omega), hchild _ (by omega) (by omega)]

theorem unique_lookup_eq_one {α : Type} {d : Domains α}
    (hu : unique d = true) {p : VarName × List α} (hp : p ∈ d) :
    p.2.length = 1 := by
  simp only [unique, List.all_eq_true] at hu
  simpa using hu p hp

/-- The assignment emitted at a unique leaf draws each variable's value
from its (singleton) domain. -/
theorem leaf_drawnFrom {α : Type} [Inhabited α] {d : Domains α}
    (hu : unique d = true) :
    List.Forall₂ DrawnFrom
      (d.map (fun p => (p.1, p.2.headD default))) d := by
  induction d with
  | nil => simp
  | cons p rest ih =>
    refine List.Forall₂.cons ⟨rfl, ?_⟩ ?_
    · have h1 : p.2.length = 1 :=
        unique_lookup_eq_one hu (List.mem_cons_self _ _)
      obtain ⟨x, hx⟩ := List.length_eq_one.mp h1
      simp [hx]
    · refine ih ?_
      simp only [unique, List.all_eq_true] at hu ⊢
      exact fun q hq => hu q (List.mem_cons_of_mem _ hq)

theorem make_split_lookup_sublist {α : Type} [DecidableEq α] [Inhabited α]
    {csp : CSP α} {v : VarName} {part : List α}
    (hsubpart : List.Sublist part (lookupDom (arc_consistency csp) v)) :
    ∀ w, List.Sublist
      (lookupDom (make_split_csp csp (arc_consistency csp) v part).vars w)
      (lookupDom csp.vars w) := by
  intro w
  by_cases hw : w = v
  · subst hw
    rw [make_split_csp_lookup_self]
    exact hsubpart.trans (arc_consistency_lookup_sublist csp w)
  · rw [make_split_csp_lookup_ne _ _ _ hw]
    exact arc_consistency_lookup_sublist csp w

theorem make_split_nodupDoms {α : Type} [DecidableEq α] [Inhabited α]
    {csp : CSP α} {v : VarName} {part : List α}
    (hdoms : NodupDoms csp.vars)
    (hsubpart : List.Sublist part (lookupDom (arc_consistency csp) v)) :
    NodupDoms (make_split_csp csp (arc_consistency csp) v part).vars :=
  nodupDoms_dictUpdate (arc_consistency_nodupDoms hdoms)
    (hsubpart.nodup (lookupDom_nodup (arc_consistency_nodupDoms hdoms) v))

/-- Soundness of the emitted assignments' shape: every assignment yielded
by the search has exactly the problem's variables as keys, in order, each
bound to one value drawn from that variable's original domain. -/
theorem ds_fuel_drawnFrom {α : Type} [DecidableEq α] [Inhabited α] :
    ∀ (f : Nat) (csp : CSP α), NodupKeys csp.vars → NodupDoms csp.vars →
      ∀ a ∈ ds_fuel f csp, List.Forall₂ DrawnFrom a csp.vars := by
  intro f
  induction f with
  | zero =>
    intro csp _ _ a ha
    simp [ds_fuel] at ha
  | succ f ih =>
    intro csp hnd hdoms a ha
    simp only [ds_fuel] at ha
    by_cases he : some_empty (arc_consistency csp) = true
    · simp [he] at ha
    · have he' : some_empty (arc_consistency csp) = false :=
        Bool.not_eq_true _ ▸ he
      by_cases hu : unique (arc_consistency csp) = true
      · simp only [he, hu, if_false, if_true, Bool.false_eq_true,
          List.mem_singleton] at ha
        subst ha
        exact forall₂_drawnFrom_lift hnd (arc_consistency_keys csp)
          (arc_consistency_lookup_sublist csp) (leaf_drawnFrom hu)
      · have hu' : unique (arc_consistency csp) = false :=
          Bool.not_eq_true _ ▸ hu
        obtain ⟨v, hsome, hvk, hlen2⟩ := split_var_context hnd he' hu'
        simp only [he, hu, if_false, Bool.false_eq_true, hsome,
          List.mem_append] at ha
        have hparts := partition_domain_sublists
          (lookupDom (arc_consistency csp) v)
        have hfromChild : ∀ part : List α,
            List.Sublist part (lookupDom (arc_consistency csp) v) →
            a ∈ ds_fuel f (make_split_csp csp (arc_consistency csp) v part) →
            List.Forall₂ DrawnFrom a csp.vars := by
          intro part hsubpart hmem
          have hndc : NodupKeys
              (make_split_csp csp (arc_consistency csp) v part).vars := by
            refine nodupKeys_of_keys_eq ?_ hnd
            rw [make_split_csp_keys csp part hvk, arc_consistency_keys csp]
          have hF := ih _ hndc (make_split_nodupDoms hdoms hsubpart) a hmem
          refine forall₂_drawnFrom_lift hnd ?_
            (make_split_lookup_sublist hsubpart) hF
          rw [make_split_csp_keys csp part hvk, arc_consistency_keys csp]
        rcases ha with ha | ha
        · exact hfromChild _ hparts.1 ha
        · exact hfromChild _ hparts.2 ha

theorem lookupVal_leaf {α : Type} [Inhabited α] (d : Domains α)
    (w : VarName) :
    lookupVal (d.map (fun p => (p.1, p.2.headD default))) w =
      (lookupDom d w).headD default := by
  induction d with
  | nil => simp [lookupVal, lookupDom]
  | cons p rest ih =>
    obtain ⟨k, dk⟩ := p
    by_cases hk : k = w
    · simp [lookupVal, lookupDom, hk]
    · simp only [List.map_cons, lookupVal, lookupDom, if_neg hk]
      exact ih

/-- At a unique leaf the emitted assignment satisfies every constraint
whose scope is non-empty: the constraint is arc-consistent toward its
first scope variable, whose singleton value's support is forced to be the
emitted assignment itself. -/
theorem leaf_satisfies {α : Type} [DecidableEq α] [Inhabited α]
    {csp : CSP α} (hnd : NodupKeys csp.vars) (hsv : ScopesValid csp)
    (hid : IdSeparated csp.constraints)
    (hu : unique (arc_consistency csp) = true)
    {c : Constraint α} (hc : c ∈ csp.constraints) (hcv : c.vars ≠ []) :
    c.check ((arc_consistency csp).map
      (fun p => (p.1, p.2.headD default))) = true := by
  set R := arc_consistency csp with hR
  have hndR : NodupKeys R := nodupKeys_of_keys_eq (arc_consistency_keys csp) hnd
  have hkeysR : R.map Prod.fst = csp.vars.map Prod.fst :=
    arc_consistency_keys csp
  have hsingle : ∀ w ∈ c.vars, ∃ x, lookupDom R w = [x] := by
    intro w hw
    have hwk : w ∈ R.map Prod.fst := by
      rw [hkeysR]
      exact hsv c hc w hw
    have hlen : (lookupDom R w).length = 1 :=
      unique_lookup_eq_one hu (lookupDom_entry_mem hwk)
    exact List.length_eq_one.mp hlen
  obtain ⟨v₀, hv₀⟩ : ∃ v₀, v₀ ∈ c.vars := by
    cases hv : c.vars with
    | nil => exact absurd hv hcv
    | cons y ys => exact ⟨y, by simp [hv]⟩
  obtain ⟨x, hx⟩ := hsingle v₀ hv₀
  have hcons : ArcCons c v₀ R := arc_consistency_arcCons hnd hsv hid c hc v₀ hv₀
  obtain ⟨g, hgv, hgdom, hgfn⟩ := hcons x (by simp [hx])
  have hvals : ∀ w ∈ c.vars,
      lookupVal (R.map (fun p => (p.1, p.2.headD default))) w = g w := by
    intro w hw
    rw [lookupVal_leaf]
    by_cases hwv : w = v₀
    · subst hwv
      rw [hx, hgv]
      rfl
    · obtain ⟨y, hy⟩ := hsingle w hw
      have := hgdom w hw hwv
      rw [hy] at this ⊢
      simp only [List.mem_singleton] at this
      simp [this]
  unfold Constraint.check
  rw [List.map_congr_left hvals]
  exact hgfn

/-- Every assignment yielded by the search satisfies every constraint of
the original problem whose scope is non-empty. -/
theorem ds_fuel_satisfies {α : Type} [DecidableEq α] [Inhabited α] :
    ∀ (f : Nat) (csp : CSP α), NodupKeys csp.vars → ScopesValid csp →
      IdSeparated csp.constraints →
      ∀ a ∈ ds_fuel f csp, ∀ c ∈ csp.constraints, c.vars ≠ [] →
        c.check a = true := by
  intro f
  induction f with
  | zero =>
    intro csp _ _ _ a ha
    simp [ds_fuel] at ha
  | succ f ih =>
    intro csp hnd hsv hid a ha c hc hcv
    simp only [ds_fuel] at ha
    by_cases he : some_empty (arc_consistency csp) = true
    · simp [he] at ha
    · by_cases hu : unique (arc_consistency csp) = true
      · simp only [he, hu, if_false, if_true, Bool.false_eq_true,
          List.mem_singleton] at ha
        subst ha
        exact leaf_satisfies hnd hsv hid hu hc hcv
      · have he' : some_empty (arc_consistency csp) = false :=
          Bool.not_eq_true _ ▸ he
        have hu' : unique (arc_consistency csp) = false :=
          Bool.not_eq_true _ ▸ hu
        obtain ⟨v, hsome, hvk, hlen2⟩ := split_var_context hnd he' hu'
        simp only [he, hu, if_false, Bool.false_eq_true, hsome,
          List.mem_append] at ha
        have hfromChild : ∀ part : List α,
            a ∈ ds_fuel f (make_split_csp csp (arc_consistency csp) v part) →
            c.check a = true := by
          intro part hmem
          have hkeysc : (make_split_csp csp
              (arc_consistency csp) v part).vars.map Prod.fst =
              csp.vars.map Prod.fst := by
            rw [make_split_csp_keys csp part hvk, arc_consistency_keys csp]
          have hndc : NodupKeys
              (make_split_csp csp (arc_consistency csp) v part).vars :=
            nodupKeys_of_keys_eq hkeysc hnd
          have hsvc : ScopesValid
              (make_split_csp csp (arc_consistency csp) v part) := by
            intro c' hc' w hw
            rw [hkeysc]
            exact hsv c' hc' w hw
          exact ih _ hndc hsvc hid a hmem c hc hcv
        rcases ha with ha | ha
        · exact hfromChild _ ha
        · exact hfromChild _ ha

/-! ### Completeness: satisfying assignments are never pruned -/

/-- Propagation never removes a value used by a complete satisfying
assignment: the assignment itself restricts to a support for each of its
values. -/
theorem acLoop_preserves_solution {α : Type} [DecidableEq α] [Inhabited α]
    (arcs : List (Arc α)) (σ : VarName → α)
    (hsat : ∀ b ∈ arcs, b.constraint.fn (b.constraint.vars.map σ) = true)
    (agenda : List (Arc α)) (d : Domains α) (hnd : NodupKeys d)
    (hsv : ∀ b ∈ arcs, ∀ w ∈ b.constraint.vars, w ∈ d.map Prod.fst)
    (hag : ∀ x ∈ agenda, x ∈ arcs)
    (hcompat : ∀ v ∈ d.map Prod.fst, σ v ∈ lookupDom d v) :
    ∀ v ∈ d.map Prod.fst, σ v ∈ lookupDom (acLoop arcs agenda d) v := by
  induction agenda, d using acLoop.induct arcs with
  | case1 d =>
    rw [acLoop_nil]
    exact hcompat
  | case2 current rest d new_domain old_domain hfix ih =>
    rw [acLoop_cons_fix arcs rest hfix]
    exact ih hnd hsv (fun x hx => hag x (List.mem_cons_of_mem _ hx)) hcompat
  | case3 current rest d new_domain old_domain hne ih =>
    rw [acLoop_cons_rev arcs rest hne]
    have hcur : current ∈ arcs := hag current (List.mem_cons_self _ _)
    have hcvk : current.var ∈ d.map Prod.fst :=
      mem_keys_of_lookupDom_ne_nil (lookupDom_ne_nil_of_revised hne)
    have hkeys' : (dictUpdate d current.var
        (make_consistent current d)).map Prod.fst = d.map Prod.fst :=
      dictUpdate_keys_of_mem _ hcvk
    have hcompat' : ∀ v ∈ (dictUpdate d current.var
        (make_consistent current d)).map Prod.fst,
        σ v ∈ lookupDom (dictUpdate d current.var
          (make_consistent current d)) v := by
      intro v hv
      rw [hkeys'] at hv
      by_cases hvc : v = current.var
      · subst hvc
        rw [lookupDom_dictUpdate_self]
        refine mem_make_consistent_of_support hnd (hsv current hcur)
          (hcompat _ hv) ?_
        exact ⟨σ, rfl, fun w hw _ => hcompat w (hsv current hcur w hw),
          hsat current hcur⟩
      · rw [lookupDom_dictUpdate_ne d _ hvc]
        exact hcompat v hv
    intro v hv
    refine ih (nodupKeys_of_keys_eq hkeys' hnd) ?_ ?_ hcompat' v ?_
    · intro b hb w hw
      rw [hkeys']
      exact hsv b hb w hw
    · intro x hx
      rcases mem_foldl_addArc hx with h | h
      · exact hag x (List.mem_cons_of_mem _ h)
      · exact List.mem_of_mem_filter h
    · rw [hkeys']
      exact hv

theorem arc_consistency_preserves_solution {α : Type} [DecidableEq α]
    [Inhabited α] {csp : CSP α} (hnd : NodupKeys csp.vars)
    (hsv : ScopesValid csp) (σ : VarName → α)
    (hsat : ∀ c ∈ csp.constraints, c.fn (c.vars.map σ) = true)
    (hcompat : ∀ v ∈ csp.vars.map Prod.fst, σ v ∈ lookupDom csp.vars v) :
    ∀ v ∈ csp.vars.map Prod.fst,
      σ v ∈ lookupDom (arc_consistency csp) v := by
  refine acLoop_preserves_solution (get_initial_arcs csp) σ ?_ _ csp.vars
    hnd ?_ ?_ hcompat
  · intro b hb
    exact hsat b.constraint (mem_get_initial_arcs.mp hb).1
  · intro b hb w hw
    exact hsv b.constraint (mem_get_initial_arcs.mp hb).1 w hw
  · intro x hx
    rcases mem_foldl_addArc hx with h | h
    · simp at h
    · exact h

theorem assignFrom_eq_of_keys_eq {α : Type} {d d' : Domains α}
    (h : d.map Prod.fst = d'.map Prod.fst) (f : VarName → α) :
    assignFrom d f = assignFrom d' f := by
  have h1 : assignFrom d f = (d.map Prod.fst).map (fun k => (k, f k)) := by
    rw [List.map_map]
    rfl
  have h2 : assignFrom d' f = (d'.map Prod.fst).map (fun k => (k, f k)) := by
    rw [List.map_map]
    rfl
  rw [h1, h2, h]

/-- A complete satisfying assignment over the original domains is yielded
by the search, given enough fuel. -/
theorem ds_fuel_complete {α : Type} [DecidableEq α] [Inhabited α] :
    ∀ (f : Nat) (csp : CSP α), NodupKeys csp.vars → ScopesValid csp →
      splitSlack csp.vars + 1 ≤ f →
      ∀ σ : VarName → α,
        (∀ c ∈ csp.constraints, c.fn (c.vars.map σ) = true) →
        (∀ v ∈ csp.vars.map Prod.fst, σ v ∈ lookupDom csp.vars v) →
        assignFrom csp.vars σ ∈ ds_fuel f csp := by
  intro f
  induction f using Nat.strong_induction_on with
  | _ f ih =>
    intro csp hnd hsv hf σ hsat hcompat
    obtain ⟨m, rfl⟩ : ∃ m, f = m + 1 := ⟨f - 1, by omega⟩
    have hndR : NodupKeys (arc_consistency csp) :=
      nodupKeys_of_keys_eq (arc_consistency_keys csp) hnd
    have hcompatR : ∀ v ∈ csp.vars.map Prod.fst,
        σ v ∈ lookupDom (arc_consistency csp) v :=
      arc_consistency_preserves_solution hnd hsv σ hsat hcompat
    have he : some_empty (arc_consistency csp) = false := by
      cases hcase : some_empty (arc_consistency csp)
      · rfl
      · exfalso
        simp only [some_empty, List.any_eq_true] at hcase
        obtain ⟨p, hp, hpe⟩ := hcase
        have hpk : p.1 ∈ csp.vars.map Prod.fst := by
          rw [← arc_consistency_keys csp]
          exact List.mem_map_of_mem Prod.fst hp
        have := hcompatR p.1 hpk
        rw [lookupDom_eq_of_entry hndR hp] at this
        rw [List.isEmpty_iff.mp hpe] at this
        simp at this
    simp only [ds_fuel, he, Bool.false_eq_true, if_false]
    by_cases hu : unique (arc_consistency csp) = true
    · rw [if_pos hu]
      have h1 : assignFrom csp.vars σ =
          assignFrom (arc_consistency csp) σ :=
        assignFrom_eq_of_keys_eq (arc_consistency_keys csp).symm σ
      have h2 : assignFrom (arc_consistency csp) σ =
          (arc_consistency csp).map (fun p => (p.1, p.2.headD default)) := by
        refine List.map_congr_left ?_
        intro p hp
        have hpk : p.1 ∈ csp.vars.map Prod.fst := by
          rw [← arc_consistency_keys csp]
          exact List.mem_map_of_mem Prod.fst hp
        have hmem := hcompatR p.1 hpk
        rw [lookupDom_eq_of_entry hndR hp] at hmem
        obtain ⟨x, hx⟩ := List.length_eq_one.mp (unique_lookup_eq_one hu hp)
        rw [hx] at hmem
        simp only [List.mem_singleton] at hmem
        simp [hx, hmem]
      rw [h1, h2]
      exact List.mem_singleton_self _
    · rw [if_neg hu]
      have hu' : unique (arc_consistency csp) = false :=
        Bool.not_eq_true _ ▸ hu
      obtain ⟨v, hsome, hvk, hlen2⟩ := split_var_context hnd he hu'
      rw [hsome]
      have hvkvars : v ∈ csp.vars.map Prod.fst := by
        rw [← arc_consistency_keys csp]
        exact hvk
      have hσv : σ v ∈ lookupDom (arc_consistency csp) v :=
        hcompatR v hvkvars
    -- σ's value at the split variable lies in exactly one of the parts
      have hchild : ∀ part : List α, part.length <
          (lookupDom (arc_consistency csp) v).length → 1 ≤ part.length →
          σ v ∈ part →
          assignFrom csp.vars σ ∈ ds_fuel m
            (make_split_csp csp (arc_consistency csp) v part) := by
        intro part hplt hppos hσpart
        have hkeysc : (make_split_csp csp
            (arc_consistency csp) v part).vars.map Prod.fst =
            csp.vars.map Prod.fst := by
          rw [make_split_csp_keys csp part hvk, arc_consistency_keys csp]
        have hndc := nodupKeys_of_keys_eq hkeysc hnd
        have hsvc : ScopesValid
            (make_split_csp csp (arc_consistency csp) v part) := by
          intro c' hc' w hw
          rw [hkeysc]
          exact hsv c' hc' w hw
        have hslack := split_child_slack hnd part hplt hppos
        have hcompatc : ∀ w ∈ (make_split_csp csp
            (arc_consistency csp) v part).vars.map Prod.fst,
            σ w ∈ lookupDom (make_split_csp csp
              (arc_consistency csp) v part).vars w := by
          intro w hw
          rw [hkeysc] at hw
          by_cases hwv : w = v
          · subst hwv
            rw [make_split_csp_lookup_self]
            exact hσpart
          · rw [make_split_csp_lookup_ne _ _ _ hwv]
            exact hcompatR w hw
        have := ih m (by omega) _ hndc hsvc (by omega) σ hsat hcompatc
        rwa [← assignFrom_eq_of_keys_eq hkeysc.symm σ] at this
      have hlens := partition_domain_lengths
        (lookupDom (arc_consistency csp) v)
      rcases mem_partition_domain.mp hσv with hσ1 | hσ2
      · refine List.mem_append_left _ (hchild _ (by omega) ?_ hσ1)
        have : (partition_domain (lookupDom (arc_consistency csp) v)).1 ≠ [] :=
          (partition_domain_ne_nil hlen2).1
        have := List.length_pos.mpr this
        omega
      · refine List.mem_append_right _ (hchild _ (by omega) ?_ hσ2)
        have : (partition_domain (lookupDom (arc_consistency csp) v)).2 ≠ [] :=
          (partition_domain_ne_nil hlen2).2
        have := List.length_pos.mpr this
        omega

/-! ### No duplicate solutions -/

/-- The two sub-searches of a split yield disjoint solution sets: every
solution of the first assigns the split variable a value of the first
part, every solution of the second a value of the disjoint second part. -/
theorem ds_fuel_nodup {α : Type} [DecidableEq α] [Inhabited α] :
    ∀ (f : Nat) (csp : CSP α), NodupKeys csp.vars → NodupDoms csp.vars →
      (ds_fuel f csp).Nodup := by
  intro f
  induction f with
  | zero =>
    intro csp _ _
    simp [ds_fuel]
  | succ f ih =>
    intro csp hnd hdoms
    simp only [ds_fuel]
    by_cases he : some_empty (arc_consistency csp) = true
    · simp [he]
    · have he' : some_empty (arc_consistency csp) = false :=
        Bool.not_eq_true _ ▸ he
      by_cases hu : unique (arc_consistency csp) = true
      · simp [he, hu]
      · have hu' : unique (arc_consistency csp) = false :=
          Bool.not_eq_true _ ▸ hu
        obtain ⟨v, hsome, hvk, hlen2⟩ := split_var_context hnd he' hu'
        simp only [he, hu, if_false, Bool.false_eq_true, hsome]
        have hparts := partition_domain_sublists
          (lookupDom (arc_consistency csp) v)
        have hchildWF : ∀ part : List α,
            List.Sublist part (lookupDom (arc_consistency csp) v) →
            NodupKeys (make_split_csp csp
              (arc_consistency csp) v part).vars ∧
            NodupDoms (make_split_csp csp
              (arc_consistency csp) v part).vars := by
          intro part hsubpart
          refine ⟨nodupKeys_of_keys_eq ?_ hnd,
            make_split_nodupDoms hdoms hsubpart⟩
          rw [make_split_csp_keys csp part hvk, arc_consistency_keys csp]
        obtain ⟨hnd1, hdoms1⟩ := hchildWF _ hparts.1
        obtain ⟨hnd2, hdoms2⟩ := hchildWF _ hparts.2
        rw [List.nodup_append]
        refine ⟨ih _ hnd1 hdoms1, ih _ hnd2 hdoms2, ?_⟩
        intro a ha1 ha2
        have hF1 := ds_fuel_drawnFrom f _ hnd1 hdoms1 a ha1
        have hF2 := ds_fuel_drawnFrom f _ hnd2 hdoms2 a ha2
        have hvk1 : v ∈ (make_split_csp csp (arc_consistency csp) v
            (partition_domain (lookupDom (arc_consistency csp) v)).1).vars.map
            Prod.fst := by
          rw [make_split_csp_keys csp _ hvk]
          exact hvk
        have hvk2 : v ∈ (make_split_csp csp (arc_consistency csp) v
            (partition_domain (lookupDom (arc_consistency csp) v)).2).vars.map
            Prod.fst := by
          rw [make_split_csp_keys csp _ hvk]
          exact hvk
        have hm1 := lookupVal_mem_of_forall₂ hF1 hvk1
        have hm2 := lookupVal_mem_of_forall₂ hF2 hvk2
        rw [make_split_csp_lookup_self] at hm1 hm2
        exact partition_domain_disjoint
          (lookupDom_nodup (arc_consistency_nodupDoms hdoms) v)
          _ hm1 hm2

/-- An assignment drawn from a domain map with unique keys is recovered
from its own lookups. -/
theorem assignFrom_congr {α : Type} {d : Domains α} {f g : VarName → α}
    (h : ∀ p ∈ d, f p.1 = g p.1) : assignFrom d f = assignFrom d g := by
  unfold assignFrom
  refine List.map_congr_left ?_
  intro p hp
  rw [h p hp]

theorem assignFrom_lookupVal_eq {α : Type} [Inhabited α]
    {a : Assignment α} {d : Domains α} (hnd : NodupKeys d)
    (hF : List.Forall₂ DrawnFrom a d) :
    assignFrom d (fun v => lookupVal a v) = a := by
  induction hF with
  | nil => rfl
  | @cons p q a' d' hpq hrest ih =>
    obtain ⟨hk, _⟩ := hpq
    obtain ⟨hnk, hndrest⟩ := List.nodup_cons.mp hnd
    have h1 : lookupVal (p :: a') q.1 = p.2 := by
      rw [← hk]
      simp [lookupVal]
    have h2 : assignFrom d' (fun v => lookupVal (p :: a') v) =
        assignFrom d' (fun v => lookupVal a' v) := by
      refine assignFrom_congr ?_
      intro r hr
      have hrk : r.1 ≠ p.1 := by
        intro hrp
        apply hnk
        have hmem : r.1 ∈ d'.map Prod.fst := List.mem_map_of_mem Prod.fst hr
        rw [hrp, hk] at hmem
        exact hmem
      have hpk : p.1 ≠ r.1 := fun h => hrk h.symm
      simp [lookupVal, hpk]
    have hgoal : assignFrom (q :: d') (fun v => lookupVal (p :: a') v) =
        (q.1, lookupVal (p :: a') q.1) ::
          assignFrom d' (fun v => lookupVal (p :: a') v) := rfl
    rw [hgoal, h1, h2, ih hndrest, ← hk]

theorem acLoop_totalSize_le {α : Type} [DecidableEq α] [Inhabited α]
    (arcs agenda : List (Arc α)) (d : Domains α) :
    totalSize (acLoop arcs agenda d) ≤ totalSize d := by
  induction agenda, d using acLoop.induct arcs with
  | case1 d =>
    rw [acLoop_nil]
  | case2 current rest d new_domain old_domain hfix ih =>
    rw [acLoop_cons_fix arcs rest hfix]
    exact ih
  | case3 current rest d new_domain old_domain hne ih =>
    rw [acLoop_cons_rev arcs rest hne]
    refine le_trans ih (le_of_lt ?_)
    exact totalSize_dictUpdate_lt d current.var _
      (make_consistent_sublist current d) hne

/-! ### Concrete instances used by counterexamples and witnesses -/

/-- A CSP with a single variable and a nullary always-false constraint
(`def C(): return False` — a function with no parameters, hence an empty
inferred scope).  The arc network has no arcs for it, so propagation
ignores it entirely and the search yields `{A: 1}` although the
constraint is unsatisfiable. -/
def cexNullary : CSP Nat :=
  { vars := [("A", [1])],
    constraints := [⟨0, [], fun _ => false⟩],
    representation := none }

/-- Scenario 1 of the spec: `A, B ∈ {1,2,3}`, constraint `A < B`. -/
def wcsp : CSP Nat :=
  { vars := [("A", [1, 2, 3]), ("B", [1, 2, 3])],
    constraints := [⟨0, ["A", "B"],
      fun l => match l with | [a, b] => decide (a < b) | _ => false⟩],
    representation := none }

/-- A domain map with one singleton and one two-valued domain. -/
def wdomains : Domains Nat := [("A", [1]), ("B", [1, 2])]

/-- The two variable names of the concrete instances. -/
def varA : VarName := "A"

def varB : VarName := "B"

/-! ### The claims -/

/-- C8: whenever the domain map has no empty domain and is not all
singletons — exactly the state in which `domain_splitting` enters its
split branch — `get_split_var` finds an entry whose domain has more than
one value and returns its variable; the Python function's final
`assert False` (modelled by the `none` result) is never reached. -/
theorem c8_get_split_var {α : Type} (domains : Domains α)
    (he : some_empty domains = false) (hu : unique domains = false) :
    ∃ p ∈ domains, 1 < p.2.length ∧ get_split_var domains = some p.1 :=
  get_split_var_spec he hu

theorem c8_get_split_var_witness :
    some_empty wdomains = false ∧ unique wdomains = false ∧
      ∃ p ∈ wdomains, 1 < p.2.length ∧
        get_split_var wdomains = some p.1 :=
  ⟨by decide, by decide, c8_get_split_var wdomains (by decide) (by decide)⟩

/-- C9: `partition_domain` splits a duplicate-free list into two parts
whose union is the input, of sizes `⌈n/2⌉` and `⌊n/2⌋` (values alternate
between the parts in iteration order), disjoint, and both non-empty
whenever the input has at least two values. -/
theorem c9_partition_domain {α : Type} (l : List α) (hnd : l.Nodup) :
    (∀ x, x ∈ l ↔ x ∈ (partition_domain l).1 ∨ x ∈ (partition_domain l).2) ∧
    (partition_domain l).1.length = (l.length + 1) / 2 ∧
    (partition_domain l).2.length = l.length / 2 ∧
    (∀ x ∈ (partition_domain l).1, x ∉ (partition_domain l).2) ∧
    (2 ≤ l.length →
      (partition_domain l).1 ≠ [] ∧ (partition_domain l).2 ≠ []) :=
  ⟨fun _ => mem_partition_domain, (partition_domain_lengths l).1,
    (partition_domain_lengths l).2, partition_domain_disjoint hnd,
    fun h2 => partition_domain_ne_nil h2⟩

theorem c9_partition_domain_witness :
    ([1, 2, 3] : List Nat).Nodup ∧
    ((∀ x, x ∈ [1, 2, 3] ↔ x ∈ (partition_domain [1, 2, 3]).1 ∨
        x ∈ (partition_domain [1, 2, 3]).2) ∧
      (partition_domain ([1, 2, 3] : List Nat)).1.length = (3 + 1) / 2 ∧
      (partition_domain ([1, 2, 3] : List Nat)).2.length = 3 / 2 ∧
      (∀ x ∈ (partition_domain ([1, 2, 3] : List Nat)).1,
        x ∉ (partition_domain [1, 2, 3]).2) ∧
      (2 ≤ ([1, 2, 3] : List Nat).length →
        (partition_domain ([1, 2, 3] : List Nat)).1 ≠ [] ∧
        (partition_domain ([1, 2, 3] : List Nat)).2 ≠ [])) :=
  ⟨by decide, c9_partition_domain [1, 2, 3] (by decide)⟩

/-- C10: `make_split_csp` shares the input CSP's constraint list and
representation function (in the shallow embedding, sharing of the
unchanged Python objects is reflected as equality; the input CSP itself is
never mutated, as all model functions are pure), and its variables mapping
is the given propagated domain map with exactly the split variable's
domain replaced by the given subset. -/
theorem c10_make_split_csp {α : Type} (csp : CSP α) (new_domains : Domains α)
    (split_var : VarName) (split_domain : List α) :
    (make_split_csp csp new_domains split_var split_domain).constraints =
        csp.constraints ∧
    (make_split_csp csp new_domains split_var split_domain).representation =
        csp.representation ∧
    (make_split_csp csp new_domains split_var split_domain).vars =
        dictUpdate new_domains split_var split_domain ∧
    lookupDom (make_split_csp csp new_domains split_var split_domain).vars
        split_var = split_domain ∧
    ∀ w, w ≠ split_var →
      lookupDom (make_split_csp csp new_domains split_var split_domain).vars
        w = lookupDom new_domains w :=
  ⟨rfl, rfl, rfl, make_split_csp_lookup_self csp new_domains _ _,
    fun _ hw => make_split_csp_lookup_ne csp new_domains _ hw⟩

theorem c10_make_split_csp_witness :
    (make_split_csp wcsp wdomains varB [2]).constraints = wcsp.constraints ∧
    (make_split_csp wcsp wdomains varB [2]).representation =
        wcsp.representation ∧
    (make_split_csp wcsp wdomains varB [2]).vars =
        dictUpdate wdomains varB [2] ∧
    lookupDom (make_split_csp wcsp wdomains varB [2]).vars varB = [2] ∧
    lookupDom (make_split_csp wcsp wdomains varB [2]).vars varA =
        lookupDom wdomains varA := by
  have h := c10_make_split_csp wcsp wdomains varB [2]
  exact ⟨h.1, h.2.1, h.2.2.1, h.2.2.2.1, h.2.2.2.2 varA (by decide)⟩

/-- C3: the arc-consistency contract.  For every CSP whose constraints'
scopes reference only names of the variables mapping (with the structural
dict/set/identity invariants of the Python data model), the returned
domain map is arc-consistent: for every constraint `c` and every variable
`v` of its scope, every value `x` remaining in `v`'s returned domain has a
support — an assignment of the other scope variables drawn from their
returned domains under which `c` holds with `v = x` — even though a
revision only re-enqueues arcs of *other* constraints. -/
theorem c3_arc_consistency_contract {α : Type} [DecidableEq α] [Inhabited α]
    (csp : CSP α) (hnd : NodupKeys csp.vars) (hsv : ScopesValid csp)
    (hid : IdSeparated csp.constraints) :
    ∀ c ∈ csp.constraints, ∀ v ∈ c.vars,
      ∀ x ∈ lookupDom (arc_consistency csp) v,
        Support c (arc_consistency csp) v x :=
  arc_consistency_arcCons hnd hsv hid

theorem c3_arc_consistency_contract_witness :
    NodupKeys wcsp.vars ∧ ScopesValid wcsp ∧
    ∀ c ∈ wcsp.constraints, ∀ v ∈ c.vars,
      ∀ x ∈ lookupDom (arc_consistency wcsp) v,
        Support c (arc_consistency wcsp) v x :=
  ⟨by decide, by decide,
    c3_arc_consistency_contract wcsp (by decide) (by decide)
      (idSeparated_of_nodup (by decide))⟩

/-- C5: monotonic shrink.  For every CSP the domain `arc_consistency`
returns for a variable is a sublist (hence a subset) of that variable's
original domain, and every single revision (`make_consistent`) returns a
sublist of the revised variable's current domain — a removed value is
never re-added, domains never grow. -/
theorem c5_monotonic_shrink {α : Type} [DecidableEq α] [Inhabited α] :
    (∀ (csp : CSP α) (v : VarName),
      List.Sublist (lookupDom (arc_consistency csp) v)
        (lookupDom csp.vars v)) ∧
    (∀ (arc : Arc α) (d : Domains α),
      List.Sublist (make_consistent arc d) (lookupDom d arc.var)) :=
  ⟨fun csp v => arc_consistency_lookup_sublist csp v,
    fun arc d => make_consistent_sublist arc d⟩

/-- C6: fixpoint idempotence.  Running `arc_consistency` on a CSP whose
variable domains are the domain map returned by a first run (same
constraints and representation) returns that domain map unchanged. -/
theorem c6_fixpoint_idempotence {α : Type} [DecidableEq α] [Inhabited α]
    (csp : CSP α) (hnd : NodupKeys csp.vars) (hsv : ScopesValid csp)
    (hid : IdSeparated csp.constraints) :
    arc_consistency { vars := arc_consistency csp,
                      constraints := csp.constraints,
                      representation := csp.representation } =
      arc_consistency csp :=
  arc_consistency_idempotent hnd hsv hid

theorem c6_fixpoint_idempotence_witness :
    NodupKeys wcsp.vars ∧ ScopesValid wcsp ∧
    arc_consistency { vars := arc_consistency wcsp,
                      constraints := wcsp.constraints,
                      representation := wcsp.representation } =
      arc_consistency wcsp :=
  ⟨by decide, by decide,
    c6_fixpoint_idempotence wcsp (by decide) (by decide)
      (idSeparated_of_nodup (by decide))⟩

/-- C4: termination of the search.  Any recursion fuel of at least
`splitSlack csp.vars + 1` — one more than the sum of `domain size − 1`
over all variables, the spec's recursion-depth bound — yields the same
(finite) solution list as `domain_splitting`, and each CSP passed to a
recursive call in the split branch has a strictly smaller total
domain-size sum than its parent. -/
theorem c4_termination {α : Type} [DecidableEq α] [Inhabited α]
    (csp : CSP α) (hnd : NodupKeys csp.vars) :
    (∀ f, splitSlack csp.vars + 1 ≤ f →
      ds_fuel f csp = domain_splitting csp) ∧
    (∀ (v : VarName) (part : List α),
      some_empty (arc_consistency csp) = false →
      unique (arc_consistency csp) = false →
      get_split_var (arc_consistency csp) = some v →
      (part = (partition_domain (lookupDom (arc_consistency csp) v)).1 ∨
        part = (partition_domain (lookupDom (arc_consistency csp) v)).2) →
      totalSize (make_split_csp csp (arc_consistency csp) v part).vars <
        totalSize csp.vars) := by
  constructor
  · intro f hf
    unfold domain_splitting
    exact ds_fuel_stable f csp (splitSlack csp.vars + 1) hnd hf le_rfl
  · intro v part he hu hsome hpart
    obtain ⟨v', hsome', hvk, hlen2⟩ := split_var_context hnd he hu
    rw [hsome] at hsome'
    cases Option.some.inj hsome'
    have hsubs := partition_domain_sublists (lookupDom (arc_consistency csp) v)
    have hlens := partition_domain_lengths (lookupDom (arc_consistency csp) v)
    have hsub : List.Sublist part (lookupDom (arc_consistency csp) v) := by
      rcases hpart with rfl | rfl
      · exact hsubs.1
      · exact hsubs.2
    have hplt : part.length < (lookupDom (arc_consistency csp) v).length := by
      rcases hpart with rfl | rfl
      · omega
      · omega
    have hne : part ≠ lookupDom (arc_consistency csp) v := by
      intro heq
      rw [heq] at hplt
      omega
    have h1 : totalSize (dictUpdate (arc_consistency csp) v part) <
        totalSize (arc_consistency csp) :=
      totalSize_dictUpdate_lt _ v part hsub hne
    have h2 : totalSize (arc_consistency csp) ≤ totalSize csp.vars := by
      unfold arc_consistency
      exact acLoop_totalSize_le _ _ _
    exact lt_of_lt_of_le h1 h2

theorem c4_termination_witness :
    NodupKeys wcsp.vars ∧
    ((∀ f, splitSlack wcsp.vars + 1 ≤ f →
        ds_fuel f wcsp = domain_splitting wcsp) ∧
      (∀ (v : VarName) (part : List Nat),
        some_empty (arc_consistency wcsp) = false →
        unique (arc_consistency wcsp) = false →
        get_split_var (arc_consistency wcsp) = some v →
        (part = (partition_domain (lookupDom (arc_consistency wcsp) v)).1 ∨
          part = (partition_domain (lookupDom (arc_consistency wcsp) v)).2) →
        totalSize (make_split_csp wcsp (arc_consistency wcsp) v part).vars <
          totalSize wcsp.vars)) :=
  ⟨by decide, c4_termination wcsp (by decide)⟩

/-- C1 (amended): soundness of the search, for constraints with non-empty
scopes.  Every assignment yielded by `domain_splitting` binds exactly the
problem's variables, in order, each to one value drawn from that
variable's original domain, and satisfies every constraint of the original
problem.  (The amendment — each constraint's scope is non-empty — is
forced by `c1_nullary_counterexample`: a constraint with an empty scope
generates no arcs, is never evaluated, and can be violated by a yielded
assignment.) -/
theorem c1_soundness {α : Type} [DecidableEq α] [Inhabited α]
    (csp : CSP α) (hnd : NodupKeys csp.vars) (hdoms : NodupDoms csp.vars)
    (hsv : ScopesValid csp) (hid : IdSeparated csp.constraints)
    (hne : ∀ c ∈ csp.constraints, c.vars ≠ []) :
    ∀ a ∈ domain_splitting csp,
      List.Forall₂ DrawnFrom a csp.vars ∧
      ∀ c ∈ csp.constraints, c.check a = true := by
  intro a ha
  rw [domain_splitting] at ha
  exact ⟨ds_fuel_drawnFrom _ csp hnd hdoms a ha,
    fun c hc => ds_fuel_satisfies _ csp hnd hsv hid a ha c hc (hne c hc)⟩

/-- The nullary constraint of `cexNullary` contributes no arcs, so
propagation returns the domains unchanged.  (The propagation loop is
defined by well-founded recursion, which the kernel does not evaluate, so
this is proved by its unfolding lemmas rather than by `decide`.) -/
theorem cexNullary_arc_consistency :
    arc_consistency cexNullary = [("A", [1])] := by
  show acLoop ([] : List (Arc Nat)) [] cexNullary.vars = [("A", [1])]
  exact acLoop_nil _ _

theorem cexNullary_domain_splitting :
    domain_splitting cexNullary = [[("A", 1)]] := by
  show ds_fuel 1 cexNullary = [[("A", 1)]]
  simp only [ds_fuel, cexNullary_arc_consistency]
  decide

/-- C1, counterexample to the unamended claim: a CSP with a single
variable `A ∈ {1}` and one always-false constraint with an *empty* scope
(a Python constraint function with no parameters) vacuously satisfies the
claim's scope-validity hypothesis, yet the search yields `{A: 1}`, which
violates that constraint. -/
theorem c1_nullary_counterexample :
    ScopesValid cexNullary ∧
    ∃ a ∈ domain_splitting cexNullary, ∃ c ∈ cexNullary.constraints,
      c.check a = false := by
  refine ⟨by decide, ?_⟩
  rw [cexNullary_domain_splitting]
  decide

theorem c1_soundness_witness :
    NodupKeys wcsp.vars ∧ NodupDoms wcsp.vars ∧ ScopesValid wcsp ∧
    (∀ c ∈ wcsp.constraints, c.vars ≠ []) ∧
    ∀ a ∈ domain_splitting wcsp,
      List.Forall₂ DrawnFrom a wcsp.vars ∧
      ∀ c ∈ wcsp.constraints, c.check a = true :=
  ⟨by decide, by decide, by decide, by decide,
    c1_soundness wcsp (by decide) (by decide) (by decide)
      (idSeparated_of_nodup (by decide)) (by decide)⟩

/-- C2 (amended): completeness of the search, for constraints with
non-empty scopes.  The set of assignments yielded by exhausting
`domain_splitting` equals the set of all complete assignments over the
original (pre-propagation) domains that satisfy all constraints — neither
arc-consistency pruning nor domain splitting loses a satisfying
assignment.  (The amendment is forced by `c2_nullary_counterexample`.) -/
theorem c2_completeness {α : Type} [DecidableEq α] [Inhabited α]
    (csp : CSP α) (hnd : NodupKeys csp.vars) (hdoms : NodupDoms csp.vars)
    (hsv : ScopesValid csp) (hid : IdSeparated csp.constraints)
    (hne : ∀ c ∈ csp.constraints, c.vars ≠ []) :
    ∀ a, a ∈ domain_splitting csp ↔ a ∈ bruteSolutions csp := by
  intro a
  constructor
  · intro ha
    rw [domain_splitting] at ha
    have hF := ds_fuel_drawnFrom _ csp hnd hdoms a ha
    refine List.mem_filter.mpr ⟨mem_domain_product.mpr hF, ?_⟩
    simp only [List.all_eq_true]
    intro c hc
    exact ds_fuel_satisfies _ csp hnd hsv hid a ha c hc (hne c hc)
  · intro ha
    obtain ⟨hprod, hchk⟩ := List.mem_filter.mp ha
    have hF := mem_domain_product.mp hprod
    have hsat : ∀ c ∈ csp.constraints,
        c.fn (c.vars.map (fun v => lookupVal a v)) = true := by
      intro c hc
      exact List.all_eq_true.mp hchk c hc
    have hcompat : ∀ v ∈ csp.vars.map Prod.fst,
        lookupVal a v ∈ lookupDom csp.vars v :=
      fun v hv => lookupVal_mem_of_forall₂ hF hv
    have hmem := ds_fuel_complete (splitSlack csp.vars + 1) csp hnd hsv
      le_rfl (fun v => lookupVal a v) hsat hcompat
    rw [assignFrom_lookupVal_eq hnd hF] at hmem
    exact hmem

/-- C2, counterexample to the unamended claim: with the nullary
always-false constraint the search yields `{A: 1}` but brute-force
enumeration filters it out, so the two sets differ. -/
theorem c2_nullary_counterexample :
    ScopesValid cexNullary ∧
    [("A", 1)] ∈ domain_splitting cexNullary ∧
    [("A", 1)] ∉ bruteSolutions cexNullary := by
  refine ⟨by decide, ?_, by decide⟩
  rw [cexNullary_domain_splitting]
  decide

theorem c2_completeness_witness :
    NodupKeys wcsp.vars ∧ NodupDoms wcsp.vars ∧ ScopesValid wcsp ∧
    (∀ c ∈ wcsp.constraints, c.vars ≠ []) ∧
    ∀ a, a ∈ domain_splitting wcsp ↔ a ∈ bruteSolutions wcsp :=
  ⟨by decide, by decide, by decide, by decide,
    c2_completeness wcsp (by decide) (by decide) (by decide)
      (idSeparated_of_nodup (by decide)) (by decide)⟩

/-- C7: no duplicates.  The solution list produced by exhausting
`domain_splitting` never contains the same assignment twice: the two
sub-searches of a split yield disjoint solution sets, because every
solution of a sub-problem assigns the split variable a value of that
sub-problem's part of the partitioned domain. -/
theorem c7_no_duplicates {α : Type} [DecidableEq α] [Inhabited α]
    (csp : CSP α) (hnd : NodupKeys csp.vars) (hdoms : NodupDoms csp.vars) :
    (domain_splitting csp).Nodup :=
  ds_fuel_nodup _ csp hnd hdoms

theorem c7_no_duplicates_witness :
    NodupKeys wcsp.vars ∧ NodupDoms wcsp.vars ∧
    (domain_splitting wcsp).Nodup :=
  ⟨by decide, by decide, c7_no_duplicates wcsp (by decide) (by decide)⟩

end CspSolver
